import Mathlib

/-!
Shallow embedding of the ARM11 JIT translator core of the citra emulator:
location descriptors and condition codes (`jit_common.h`), the micro IR and
its op-info table (`micro_ir.h/.cpp`, `micro_ops.h/.cpp`), the block builder
(`micro_builder.h/.cpp`), the ARM translator (`translate_arm.cpp`), and the
three-address-code (TAC) reference executor and thread-context save/restore
(`ir.cpp`, jit_interpret).  Machine integers are modelled as `Nat` with
explicit reduction modulo 2^32 where 32-bit overflow matters.
-/

namespace ArmJit

/-- 2^32, the modulus of 32-bit machine arithmetic. -/
def U32LIMIT : Nat := 4294967296

/-- ARM condition codes (`enum class Cond` in `jit_common.h`). -/
inductive Cond
  | EQ | NE | CS | CC | MI | PL | VS | VC | HI | LS | GE | LT | GT | LE | AL | NV
  deriving DecidableEq, Repr

/-- ARM general-purpose register index (`enum class ArmReg`, values `R0`..`R15`). -/
abbrev ArmReg := Fin 16

namespace ArmReg

/-- `ArmReg::PC` is register 15. -/
def PC : ArmReg := ⟨15, by decide⟩

end ArmReg

/-- `LocationDescriptor` (`jit_common.h`): the four-field value identifying a
basic block: guest pc, Thumb flag, Endian flag, residual condition. -/
structure LocationDescriptor where
  arm_pc : Nat
  TFlag : Bool
  EFlag : Bool
  cond : Cond
  deriving DecidableEq, Repr

/-- `MicroArmFlags` (`micro_ops.h`): bitmap of the six ARM flags, one Bool per
bit (N, Z, C, V, Q, GE). -/
structure MicroArmFlags where
  n : Bool := false
  z : Bool := false
  c : Bool := false
  v : Bool := false
  q : Bool := false
  ge : Bool := false
  deriving DecidableEq, Repr

namespace MicroArmFlags

/-- `MicroArmFlags::None`. -/
def noFlags : MicroArmFlags := {}

/-- `MicroArmFlags::NZCV`. -/
def NZCV : MicroArmFlags := { n := true, z := true, c := true, v := true }

/-- `MicroArmFlags::NZC`. -/
def NZC : MicroArmFlags := { n := true, z := true, c := true }

/-- `operator|` on `MicroArmFlags`. -/
def union (a b : MicroArmFlags) : MicroArmFlags :=
  ⟨a.n || b.n, a.z || b.z, a.c || b.c, a.v || b.v, a.q || b.q, a.ge || b.ge⟩

/-- `operator&` on `MicroArmFlags`. -/
def inter (a b : MicroArmFlags) : MicroArmFlags :=
  ⟨a.n && b.n, a.z && b.z, a.c && b.c, a.v && b.v, a.q && b.q, a.ge && b.ge⟩

/-- `operator~` on `MicroArmFlags`. -/
def compl (a : MicroArmFlags) : MicroArmFlags :=
  ⟨!a.n, !a.z, !a.c, !a.v, !a.q, !a.ge⟩

end MicroArmFlags

/-- `MicroType` (`micro_ops.h`): the type of a micro-instruction's value. -/
inductive MicroType
  | Void
  | U32
  deriving DecidableEq, Repr

/-- `MicroOp` (`micro_ops.h`): operation tags of micro-instructions.  The
translator additionally references `BranchWritePC` and `BXWritePC`, which the
specification lists in the canonical op set. -/
inductive MicroOp
  | ConstU32
  | GetGPR
  | SetGPR
  | PushRSBHint
  | AluWritePC
  | LoadWritePC
  | Add
  | AddWithCarry
  | Sub
  | And
  | Eor
  | Not
  | LSL
  | LSR
  | ASR
  | ROR
  | RRX
  | CountLeadingZeros
  | ClearExclusive
  | Read32
  | BranchWritePC
  | BXWritePC
  deriving DecidableEq, Repr

/-- `MicroOpInfo` (`micro_ops.h`): per-op return type, flags read, default
flags written, and argument types. -/
structure MicroOpInfo where
  ret_type : MicroType
  read_flags : MicroArmFlags
  default_write_flags : MicroArmFlags
  arg_types : List MicroType
  deriving DecidableEq, Repr

/-- `GetMicroOpInfo` (`micro_ops.cpp`): the op-info table holds exactly five
entries (ConstU32, GetGPR, SetGPR, Add, AddWithCarry); `map::at` throws for
every other op, modelled as `none`. -/
def GetMicroOpInfo : MicroOp → Option MicroOpInfo
  | .ConstU32 => some ⟨.U32, .noFlags, .noFlags, []⟩
  | .GetGPR => some ⟨.U32, .noFlags, .noFlags, []⟩
  | .SetGPR => some ⟨.Void, .noFlags, .noFlags, [.U32]⟩
  | .Add => some ⟨.U32, .noFlags, .NZCV, [.U32, .U32]⟩
  | .AddWithCarry => some ⟨.U32, { c := true }, .NZCV, [.U32, .U32]⟩
  | _ => none

/-- `MicroTerminal` (`micro_ir.h`): the terminal instruction of a basic block. -/
inductive MicroTerminal
  | ReturnToDispatch
  | PopRSBHint
  | Interpret (next : LocationDescriptor)
  | LinkBlock (next : LocationDescriptor)
  | LinkBlockFast (next : LocationDescriptor)
  | IfThenElse (cond : Cond) (then_ : MicroTerminal) (else_ : MicroTerminal)
  deriving DecidableEq, Repr

/-- The four shapes of `MicroValue` (`micro_ir.h`): `MicroConstU32`,
`MicroGetGPR`, `MicroSetGPR` and the general `MicroInst`. -/
inductive MicroKind
  | constU32 (value : Nat)
  | getGPR (reg : ArmReg)
  | setGPR (reg : ArmReg)
  | inst (op : MicroOp)
  deriving DecidableEq, Repr

/-- An SSA node of the micro IR.  The C++ stores values behind shared
pointers with weak argument and use links; here every value lives in an
arena (`Array MicroNode`) and `args`/`uses` hold arena indices.  `uses`
lists the owners of every use of this value in `AddUse` order, with
multiplicity (`MicroValue::Use`).  `write_flags` is meaningful for
`inst` nodes only. -/
structure MicroNode where
  kind : MicroKind
  args : List Nat
  write_flags : MicroArmFlags := .noFlags
  uses : List Nat := []
  deriving DecidableEq, Repr

/-- `MicroValue::GetOp`. -/
def MicroNode.GetOp : MicroNode → MicroOp
  | ⟨.constU32 _, _, _, _⟩ => .ConstU32
  | ⟨.getGPR _, _, _, _⟩ => .GetGPR
  | ⟨.setGPR _, _, _, _⟩ => .SetGPR
  | ⟨.inst op, _, _, _⟩ => op

/-- `MicroValue::GetType`; for a `MicroInst` it consults the op-info table,
whose lookup can throw (modelled as `none`). -/
def MicroNode.GetType : MicroNode → Option MicroType
  | ⟨.constU32 _, _, _, _⟩ => some .U32
  | ⟨.getGPR _, _, _, _⟩ => some .U32
  | ⟨.setGPR _, _, _, _⟩ => some .Void
  | ⟨.inst op, _, _, _⟩ => (GetMicroOpInfo op).map (·.ret_type)

/-- Type of the value at arena index `i`. -/
def valueType (a : Array MicroNode) (i : Nat) : Option MicroType :=
  (a[i]?).bind MicroNode.GetType

/-- `MicroValue::AddUse`: record that `owner` uses the value at `target`. -/
def addUse (a : Array MicroNode) (target owner : Nat) : Array MicroNode :=
  a.modify target fun nd => { nd with uses := nd.uses ++ [owner] }

/-- `MicroBlock` (`micro_ir.h`): arena of owned values, instruction list (in
insertion order, as arena indices), terminal and cycle count.  A
default-constructed `boost::variant` terminal is its first alternative,
`ReturnToDispatch`. -/
structure MicroBlock where
  location : LocationDescriptor
  nodes : Array MicroNode := #[]
  instructions : List Nat := []
  terminal : MicroTerminal := .ReturnToDispatch
  cycles_consumed : Nat := 0
  deriving DecidableEq, Repr

/-- `MicroBuilder` (`micro_builder.h`): the block under construction plus the
running union of flags written by emitted instructions. -/
structure MicroBuilder where
  block : MicroBlock
  flags_written : MicroArmFlags := .noFlags
  deriving DecidableEq, Repr

namespace MicroBuilder

/-- `MicroBuilder::GetGPR`: append a fresh `MicroGetGPR` node. -/
def GetGPR (b : MicroBuilder) (reg : ArmReg) : MicroBuilder × Nat :=
  let idx := b.block.nodes.size
  ({ b with block := { b.block with
       nodes := b.block.nodes.push ⟨.getGPR reg, [], .noFlags, []⟩,
       instructions := b.block.instructions ++ [idx] } }, idx)

/-- `MicroBuilder::ConstU32`: append a fresh `MicroConstU32` node. -/
def ConstU32 (b : MicroBuilder) (value : Nat) : MicroBuilder × Nat :=
  let idx := b.block.nodes.size
  ({ b with block := { b.block with
       nodes := b.block.nodes.push ⟨.constU32 value, [], .noFlags, []⟩,
       instructions := b.block.instructions ++ [idx] } }, idx)

/-- `MicroBuilder::SetGPR`: append a `MicroSetGPR` whose argument is the value
at index `v`; `MicroSetGPR::SetArg` asserts the argument has type `U32`
(assert failure modelled as `none`) and registers the use. -/
def SetGPR (b : MicroBuilder) (reg : ArmReg) (v : Nat) : Option (MicroBuilder × Nat) :=
  if valueType b.block.nodes v = some .U32 then
    let idx := b.block.nodes.size
    let nodes := addUse (b.block.nodes.push ⟨.setGPR reg, [v], .noFlags, []⟩) v idx
    some ({ b with block := { b.block with
              nodes := nodes,
              instructions := b.block.instructions ++ [idx] } }, idx)
  else none

/-- `MicroBuilder::Inst` (two-argument overload, `micro_builder.cpp`): build a
`MicroInst`, set both arguments (checking arity and argument types against
the op-info table), check the requested write-flags set is a subset of the
op's default set, restrict the instruction's write set to it, and extend
`flags_written`.  Any failed assertion or op-info lookup is `none`. -/
def Inst2 (b : MicroBuilder) (op : MicroOp) (x y : Nat) (write_flags : MicroArmFlags) :
    Option (MicroBuilder × Nat) := do
  let info ← GetMicroOpInfo op
  match info.arg_types with
  | [t0, t1] =>
    if valueType b.block.nodes x = some t0 ∧ valueType b.block.nodes y = some t1 then
      let idx := b.block.nodes.size
      let nodes := addUse (addUse (b.block.nodes.push
        ⟨.inst op, [x, y], info.default_write_flags, []⟩) x idx) y idx
      -- ASSERT((write_flags & ~value->WriteFlags()) == MicroArmFlags::None)
      if write_flags.inter info.default_write_flags.compl = .noFlags then
        let nodes := nodes.modify idx fun nd => { nd with write_flags := write_flags }
        some ({ block := { b.block with
                  nodes := nodes,
                  instructions := b.block.instructions ++ [idx] },
                flags_written := b.flags_written.union write_flags }, idx)
      else none
    else none
  | _ => none

/-- `MicroBuilder::Inst` (one-argument overload, `micro_builder.cpp`). -/
def Inst1 (b : MicroBuilder) (op : MicroOp) (x : Nat) (write_flags : MicroArmFlags) :
    Option (MicroBuilder × Nat) := do
  let info ← GetMicroOpInfo op
  match info.arg_types with
  | [t0] =>
    if valueType b.block.nodes x = some t0 then
      let idx := b.block.nodes.size
      let nodes := addUse (b.block.nodes.push
        ⟨.inst op, [x], info.default_write_flags, []⟩) x idx
      if write_flags.inter info.default_write_flags.compl = .noFlags then
        let nodes := nodes.modify idx fun nd => { nd with write_flags := write_flags }
        some ({ block := { b.block with
                  nodes := nodes,
                  instructions := b.block.instructions ++ [idx] },
                flags_written := b.flags_written.union write_flags }, idx)
      else none
    else none
  | _ => none

/-- `MicroBuilder::SetTerm`. -/
def SetTerm (b : MicroBuilder) (term : MicroTerminal) : MicroBuilder :=
  { b with block := { b.block with terminal := term } }

end MicroBuilder

/-- `_rotl` on a 32-bit value: rotate left by `s` places (modulo 32). -/
def rotl32 (x s : Nat) : Nat :=
  let s := s % 32
  ((x <<< s) % U32LIMIT) ||| ((x % U32LIMIT) >>> (32 - s))

/-- Modelled from the spec: `BitUtil::SignExtend<26, u32>` (`common/bit_util.h`
is not among the provided sources).  Interpret a 26-bit value as signed and
extend it to a 32-bit unsigned value. -/
def signExtend26 (x : Nat) : Nat :=
  if x.testBit 25 then (x ||| 0xFC000000) % U32LIMIT else x % U32LIMIT

/-- A 4-bit field as a register index. -/
def reg4 (x : Nat) : ArmReg := ⟨x &&& 15, Nat.lt_succ_of_le Nat.and_le_right⟩

/-- The ARM condition field, 4 bits, as a `Cond`. -/
def decodeCond (bits : Nat) : Cond :=
  match bits with
  | 0 => .EQ | 1 => .NE | 2 => .CS | 3 => .CC
  | 4 => .MI | 5 => .PL | 6 => .VS | 7 => .VC
  | 8 => .HI | 9 => .LS | 10 => .GE | 11 => .LT
  | 12 => .GT | 13 => .LE | 14 => .AL | _ => .NV

/-- Modelled from the spec: the machine-code decoder (`ArmDecoder::DecodeArm`
of `core/arm/jit/decoder/decoder.h`) is not among the provided sources; only
its visitor interface is.  The decoded bundle carries the operand fields of
the visitor method it selects.  Every visitor method of the translator other
than `B`, `ADD_imm` and `MOV_reg` has the same body (fall back to the
interpreter), so those methods are represented by the single bundle
`unhandled`. -/
inductive DecodedInst
  | B (cond : Cond) (imm24 : Nat)
  | ADD_imm (cond : Cond) (S : Bool) (n : ArmReg) (d : ArmReg) (rotate : Nat) (imm8 : Nat)
  | MOV_reg (cond : Cond) (S : Bool) (d : ArmReg) (imm5 : Nat) (m : ArmReg)
  | unhandled
  deriving DecidableEq, Repr

/-- Modelled from the spec: `ArmDecoder::DecodeArm`.  Classify a 32-bit ARM
word by its ARMv6 encoding: branch (family bits `101`), data-processing
immediate (family `001`, opcode `0100` = ADD), data-processing register
(family `000`, opcode `1101`, bit 4 clear = MOV register); all other defined
encodings decode to visitor methods that have no IR lowering; words in the
unconditional (`cond = 1111`) space are treated as undefined (`none`). -/
def DecodeArm (w : Nat) : Option DecodedInst :=
  if (w >>> 28) &&& 0xF = 15 then none
  else
    let cond := decodeCond ((w >>> 28) &&& 0xF)
    let fam := (w >>> 25) &&& 0x7
    if fam = 5 then
      if (w >>> 24) &&& 1 = 0 then some (.B cond (w &&& 0xFFFFFF)) else some .unhandled
    else if fam = 1 then
      if (w >>> 21) &&& 0xF = 4 then
        some (.ADD_imm cond (decide ((w >>> 20) &&& 1 = 1)) (reg4 (w >>> 16)) (reg4 (w >>> 12))
          ((w >>> 8) &&& 0xF) (w &&& 0xFF))
      else some .unhandled
    else if fam = 0 then
      if (w >>> 21) &&& 0xF = 13 ∧ (w >>> 4) &&& 1 = 0 then
        some (.MOV_reg cond (decide ((w >>> 20) &&& 1 = 1)) (reg4 (w >>> 12))
          ((w >>> 7) &&& 0x1F) (reg4 w))
      else some .unhandled
    else some .unhandled

/-- Failure modes of the embedded translator.  `oobSetReg` is the
out-of-bounds write of `ArmTranslator::SetReg` on register 15; `badInst` is a
fatal assertion or failed op-info lookup while constructing an instruction;
`fuelOut` marks a translation that has not terminated within the given fuel
(the C++ loop has no fuel; it diverges in exactly those cases). -/
inductive TErr
  | oobSetReg
  | badInst
  | fuelOut
  deriving DecidableEq, Repr

/-- `ArmTranslator` (translator state): the builder, the cursor `current`,
the instruction counter, the stop sentinel and the 15-slot cached-register
array `reg_values`. -/
structure ArmTranslator where
  ir : MicroBuilder
  current : LocationDescriptor
  instructions_translated : Nat := 0
  stop_compilation : Bool := false
  reg_values : Array (Option Nat) := Array.mkArray 15 none
  deriving DecidableEq, Repr

namespace ArmTranslator

/-- `ArmTranslator::PC`: `current.arm_pc + 8` as a 32-bit value. -/
def PC (st : ArmTranslator) : Nat := (st.current.arm_pc + 8) % U32LIMIT

/-- `ArmTranslator::ArmExpandImm`: `_rotl(imm8, rotate * 2)`. -/
def ArmExpandImm (imm8 : Nat) (rotate : Nat) : Nat := rotl32 imm8 (rotate * 2)

/-- `ArmTranslator::GetReg`: reading the PC yields `ConstU32(arm_pc + 8)`;
any other register is served from the cached-register slot, emitting a fresh
`GetGPR` on first read. -/
def GetReg (st : ArmTranslator) (reg : ArmReg) : ArmTranslator × Nat :=
  if reg = ArmReg.PC then
    let (b, i) := st.ir.ConstU32 st.PC
    ({ st with ir := b }, i)
  else
    match st.reg_values.getD reg.val none with
    | some v => (st, v)
    | none =>
        let (b, i) := st.ir.GetGPR reg
        ({ st with ir := b, reg_values := st.reg_values.setD reg.val (some i) }, i)

/-- `ArmTranslator::SetReg`: store into the 15-element cached-register array
at index `reg`, with no special case for the PC; index 15 is out of bounds. -/
def SetReg (st : ArmTranslator) (reg : ArmReg) (v : Nat) : Except TErr ArmTranslator :=
  if reg.val < 15 then
    .ok { st with reg_values := st.reg_values.setD reg.val (some v) }
  else .error .oobSetReg

/-- `ArmTranslator::FallbackToInterpreter`. -/
def FallbackToInterpreter (st : ArmTranslator) : ArmTranslator :=
  { st with ir := st.ir.SetTerm (.Interpret st.current), stop_compilation := true }

/-- `ArmTranslator::ConditionPassed`. -/
def ConditionPassed (st : ArmTranslator) (cond : Cond) : Bool × ArmTranslator :=
  if cond = st.current.cond ∧ st.ir.flags_written = .noFlags then
    (true, st)
  else
    (false, { st with
      instructions_translated := st.instructions_translated - 1,
      ir := st.ir.SetTerm (.LinkBlock { st.current with cond := cond }),
      stop_compilation := true })

/-- `ArmTranslator::BranchWritePC` (constant overload): link statically. -/
def BranchWritePCImm (st : ArmTranslator) (new_pc : Nat) : ArmTranslator :=
  { st with
    ir := st.ir.SetTerm (.LinkBlock { st.current with arm_pc := new_pc }),
    stop_compilation := true }

/-- `ArmTranslator::BranchWritePC` (value overload): emit
`Inst(BranchWritePC, new_pc)` then `ReturnToDispatch`.  `BranchWritePC` has
no op-info entry, so the instruction construction throws (`badInst`). -/
def BranchWritePCVal (st : ArmTranslator) (v : Nat) : Except TErr ArmTranslator :=
  match st.ir.Inst1 .BranchWritePC v .noFlags with
  | some (b, _) =>
      .ok { st with ir := b.SetTerm .ReturnToDispatch, stop_compilation := true }
  | none => .error .badInst

/-- `ArmTranslator::ALUWritePC` (value overload): ARMv6 behaviour, equal to
`BranchWritePC`. -/
def ALUWritePC (st : ArmTranslator) (v : Nat) : Except TErr ArmTranslator :=
  st.BranchWritePCVal v

/-- `ArmTranslator::B`. -/
def visitB (st : ArmTranslator) (cond : Cond) (imm24 : Nat) : ArmTranslator :=
  let imm32 := signExtend26 (imm24 <<< 2)
  match st.ConditionPassed cond with
  | (false, st) => st
  | (true, st) => st.BranchWritePCImm ((st.PC + imm32) % U32LIMIT)

/-- `ArmTranslator::ADD_imm`. -/
def visitADDimm (st : ArmTranslator) (cond : Cond) (S : Bool) (n d : ArmReg)
    (rotate : Nat) (imm8 : Nat) : Except TErr ArmTranslator :=
  let expanded_imm := ArmExpandImm imm8 rotate
  let write_flags := if S then MicroArmFlags.NZCV else .noFlags
  match st.ConditionPassed cond with
  | (false, st) => .ok st
  | (true, st) =>
    let (st, rn) := st.GetReg n
    let (b, imm32) := st.ir.ConstU32 expanded_imm
    let st := { st with ir := b }
    match st.ir.Inst2 .Add rn imm32 write_flags with
    | none => .error .badInst
    | some (b, result) =>
      let st := { st with ir := b }
      if d = ArmReg.PC then st.ALUWritePC result
      else st.SetReg d result

/-- Visitor dispatch (`ArmDecoder::Instruction::Visit` on the translator):
`B` and `ADD_imm` have lowerings; every other visitor method falls back to
the interpreter. -/
def Visit (st : ArmTranslator) : DecodedInst → Except TErr ArmTranslator
  | .B cond imm24 => .ok (st.visitB cond imm24)
  | .ADD_imm cond S n d rotate imm8 => st.visitADDimm cond S n d rotate imm8
  | .MOV_reg _ _ _ _ _ => .ok st.FallbackToInterpreter
  | .unhandled => .ok st.FallbackToInterpreter

end ArmTranslator

/-- `ArmTranslator::TranslateSingleArmInstruction`: fetch the word at
`arm_pc & 0xFFFFFFFC`, decode, fall back on an undefined word, otherwise
visit and advance the cursor by 4. -/
def TranslateSingleArmInstruction (mem : Nat → Nat) (st : ArmTranslator) :
    Except TErr ArmTranslator :=
  match DecodeArm (mem (st.current.arm_pc &&& 0xFFFFFFFC)) with
  | none => .ok st.FallbackToInterpreter
  | some di => do
      let st ← st.Visit di
      .ok { st with current :=
              { st.current with arm_pc := (st.current.arm_pc + 4) % U32LIMIT } }

/-- The do/while loop of `ArmTranslator::Translate`, with fuel: repeat
(counting each iteration in `instructions_translated`) until
`stop_compilation` is set or the cursor reaches a 4 KiB page boundary. -/
def translateLoop (mem : Nat → Nat) : Nat → ArmTranslator → Except TErr ArmTranslator
  | 0, _ => .error .fuelOut
  | fuel + 1, st => do
    let st ← TranslateSingleArmInstruction mem
      { st with instructions_translated := st.instructions_translated + 1 }
    if st.stop_compilation = false ∧ st.current.arm_pc &&& 0xFFF ≠ 0 then
      translateLoop mem fuel st
    else .ok st

/-- One slot of the register write-back at the end of
`ArmTranslator::Translate`: if the slot is bound and the bound value's op is
not `GetGPR`, emit `SetGPR`. -/
def flushStep (st : ArmTranslator) (i : Fin 15) : Option ArmTranslator :=
  match st.reg_values.getD i.val none with
  | some v =>
    match st.ir.block.nodes[v]? with
    | none => none
    | some nd =>
      if nd.GetOp ≠ .GetGPR then
        match st.ir.SetGPR i.castSucc v with
        | some (b, _) => some { st with ir := b }
        | none => none
      else some st
  | none => some st

/-- The register write-back loop at the end of `ArmTranslator::Translate`. -/
def ArmTranslator.flushRegs (st : ArmTranslator) : Option ArmTranslator :=
  (List.finRange 15).foldlM flushStep st

/-- A fresh translator for a location (`ArmTranslator` constructor; the first
line of `Translate` re-assigns `ir.block.location = current`, which is
already `location`). -/
def mkTranslator (location : LocationDescriptor) : ArmTranslator :=
  { ir := { block := { location := location } }, current := location }

/-- 1024 words fit between two 4 KiB page boundaries: enough fuel for any
terminating run of the translation loop from a word-aligned pc. -/
def PAGE_FUEL : Nat := 1024

/-- `ArmTranslator::Translate`, returning the block together with the
translator state at loop exit and the final translator state. -/
def TranslateFull (mem : Nat → Nat) (location : LocationDescriptor) :
    Except TErr (MicroBlock × ArmTranslator × ArmTranslator) := do
  let stL ← translateLoop mem PAGE_FUEL (mkTranslator location)
  -- We terminated translation purely because we hit a page boundary.
  let st := if stL.stop_compilation then stL
            else { stL with ir := stL.ir.SetTerm (.LinkBlock stL.current) }
  match st.flushRegs with
  | none => .error .badInst
  | some st =>
    let st := { st with
      ir := { st.ir with block :=
        { st.ir.block with cycles_consumed := st.instructions_translated } },
      stop_compilation := true }
    .ok (st.ir.block, stL, st)

/-- `Translate` (`translate.h`): the block alone. -/
def Translate (mem : Nat → Nat) (location : LocationDescriptor) : Except TErr MicroBlock :=
  (TranslateFull mem location).map (·.1)

/-! ## The three-address-code (TAC) executor (`ir.cpp`, jit_interpret) -/

/-- `TACInst`: one lowered instruction.  The C++ packs this into a 64-bit
word (`opcode:16, dest:16, arg_a:16, arg_b:16` or `opcode:16, dest:16,
imm32:32`); `wfbit` is the top bit of the opcode field ("writes flags"),
and the `a`/`b` pair overlays `imm32` in a union (each case of the lowering
writes only the fields its opcode reads back). -/
structure TACInst where
  op : MicroOp
  wfbit : Bool := false
  dest : Nat := 0
  a : Nat := 0
  b : Nat := 0
  imm32 : Nat := 0
  deriving DecidableEq, Repr

/-- `TACBlock`. -/
structure TACBlock where
  instructions : List TACInst
  terminal : MicroTerminal
  cycles_consumed : Nat := 0
  deriving DecidableEq, Repr

/-- The lowering state of `TranslateToTAC`: the next free virtual-register
slot (starting at 16; the first 16 slots shadow the guest GPRs) and the
`micro_value_to_pos` map. -/
structure LowerState where
  free_pos : Nat := 16
  posOf : Nat → Option Nat := fun _ => none

/-- `std::map::operator[]` on `micro_value_to_pos`: look up, default-inserting
0 for an unmapped value. -/
def LowerState.lookInsert (ls : LowerState) (k : Nat) : LowerState × Nat :=
  match ls.posOf k with
  | some p => (ls, p)
  | none => ({ ls with posOf := fun k2 => if k2 = k then some 0 else ls.posOf k2 }, 0)

/-- Bind arena index `j` to the next free slot. -/
def LowerState.bindFresh (ls : LowerState) (j : Nat) : LowerState × Nat :=
  ({ free_pos := ls.free_pos + 1,
     posOf := fun k => if k = j then some ls.free_pos else ls.posOf k }, ls.free_pos)

/-- Lower one `MicroValue` to a `TACInst` (the switch in `TranslateToTAC`).
`GetGPR`/`ConstU32` get fresh destination slots; `SetGPR` looks its argument
up with `map::at` (throwing, hence `none`, when absent); the default case
consults the op-info table for the return type and arity, asserts at most two
arguments, and sets the writes-flags bit when the instruction's write-flags
set is non-empty. -/
def lowerOne (nodes : Array MicroNode) (ls : LowerState) (j : Nat) :
    Option (LowerState × TACInst) := do
  let nd ← nodes[j]?
  match nd.kind with
  | .getGPR reg =>
      let (ls, dest) := ls.bindFresh j
      some (ls, { op := .GetGPR, dest := dest, a := reg.val })
  | .setGPR reg => do
      let arg ← nd.args.head?
      let bpos ← ls.posOf arg
      some (ls, { op := .SetGPR, a := reg.val, b := bpos })
  | .constU32 v =>
      let (ls, dest) := ls.bindFresh j
      some (ls, { op := .ConstU32, dest := dest, imm32 := v })
  | .inst op => do
      let info ← GetMicroOpInfo op
      let numArgs := info.arg_types.length
      let (ls, dest) := if info.ret_type ≠ MicroType.Void then ls.bindFresh j else (ls, 0)
      let getA : Option (LowerState × Nat) :=
        if 1 ≤ numArgs then (nd.args[0]?).map ls.lookInsert else some (ls, 0)
      match getA with
      | none => none
      | some (ls, aval) =>
        let getB : Option (LowerState × Nat) :=
          if 2 ≤ numArgs then (nd.args[1]?).map ls.lookInsert else some (ls, 0)
        match getB with
        | none => none
        | some (ls, bval) =>
          if numArgs ≤ 2 then
            some (ls, { op := op, wfbit := nd.write_flags ≠ .noFlags,
                        dest := dest, a := aval, b := bval })
          else none

/-- Lower an instruction list in order, threading the lowering state. -/
def lowerInsts (nodes : Array MicroNode) : LowerState → List Nat → Option (List TACInst)
  | _, [] => some []
  | ls, j :: rest => do
      let (ls, inst) ← lowerOne nodes ls j
      let tail ← lowerInsts nodes ls rest
      some (inst :: tail)

/-- The lowering half of `TranslateToTAC`: `MicroBlock` to `TACBlock`
(terminal and cycle count are copied over). -/
def TranslateToTACBlock (blk : MicroBlock) : Option TACBlock := do
  let insts ← lowerInsts blk.nodes {} blk.instructions
  some { instructions := insts, terminal := blk.terminal,
         cycles_consumed := blk.cycles_consumed }

/-- `TranslateToTAC`: translate the block at `desc` and lower it. -/
def TranslateToTAC (mem : Nat → Nat) (desc : LocationDescriptor) : Option TACBlock :=
  match Translate mem desc with
  | .ok blk => TranslateToTACBlock blk
  | .error _ => none

/-- The guest CPU state slice of `ARMul_State` touched by the executor and
the context functions: GPRs, VFP single registers (`ExtReg`), VFP system
registers (`VFP`, index 1 = FPSCR, 2 = FPEXC), CP15 registers, CPSR. -/
structure ARMulState where
  Reg : Fin 16 → Nat
  ExtReg : Fin 64 → Nat
  VFP : Fin 3 → Nat
  CP15 : Nat → Nat
  Cpsr : Nat

/-- `TACRunState`: the executor's virtual register file and residual
condition.  The C++ register file is a 65535-entry array; the lowering uses
far fewer slots, and we model the file as a total map. -/
structure TACRunState where
  regs : Nat → Nat
  cond : Cond

/-- The local flag booleans of `RunTAC`, unpacked from CPSR
(bits 5, 9, 31, 30, 29, 28). -/
structure TACLocals where
  tflag : Bool
  eflag : Bool
  nflag : Bool
  zflag : Bool
  cflag : Bool
  vflag : Bool
  deriving DecidableEq, Repr

/-- Pointwise update of a register file. -/
def updateFn (f : Nat → Nat) (i v : Nat) : Nat → Nat :=
  fun k => if k = i then v else f k

/-- One iteration of the instruction loop of `RunTAC`.  Flag updates read the
register file after the destination write, exactly as the source does.
Opcodes other than `GetGPR`, `SetGPR`, `ConstU32` and `Add` hit
`ASSERT(false)` (`none`). -/
def runTACInst (regs : Nat → Nat) (fl : TACLocals) (inst : TACInst) :
    Option ((Nat → Nat) × TACLocals) :=
  match inst.op with
  | .GetGPR => some (updateFn regs inst.dest (regs inst.a), fl)
  | .SetGPR => some (updateFn regs inst.a (regs inst.b), fl)
  | .ConstU32 => some (updateFn regs inst.dest inst.imm32, fl)
  | .Add =>
      let regs := updateFn regs inst.dest ((regs inst.a + regs inst.b) % U32LIMIT)
      if inst.wfbit then
        some (regs, { fl with
          nflag := decide (regs inst.dest &&& 0x80000000 ≠ 0),
          zflag := decide (regs inst.dest = 0),
          cflag := decide (regs inst.dest < regs inst.a),
          vflag := decide ((regs inst.a &&& 0x80000000 = regs inst.b &&& 0x80000000) ∧
                           (regs inst.dest &&& 0x80000000 ≠ regs inst.a &&& 0x80000000)) })
      else some (regs, fl)
  | _ => none

/-- The instruction loop of `RunTAC`. -/
def runTACInsts (regs : Nat → Nat) (fl : TACLocals) :
    List TACInst → Option ((Nat → Nat) × TACLocals)
  | [] => some (regs, fl)
  | inst :: rest => do
      let (regs, fl) ← runTACInst regs fl inst
      runTACInsts regs fl rest

/-- The terminal dispatch of `RunTAC`.  `PopRSBHint`/`ReturnToDispatch` reset
the residual condition to AL; `LinkBlock` installs the next location.  The
`LinkBlockFast` branch performs `boost::get<LinkBlock>` on a variant holding
`LinkBlockFast`, which throws `bad_get`; `Interpret` and `If` hit
`ASSERT(false)`.  All three are `none`. -/
def runTACTerminal (regs : Nat → Nat) (fl : TACLocals) :
    MicroTerminal → Option ((Nat → Nat) × TACLocals × Cond)
  | .PopRSBHint => some (regs, fl, .AL)
  | .ReturnToDispatch => some (regs, fl, .AL)
  | .LinkBlock next =>
      some (updateFn regs 15 next.arm_pc,
            { fl with tflag := next.TFlag, eflag := next.EFlag }, next.cond)
  | .LinkBlockFast _ => none
  | .Interpret _ => none
  | .IfThenElse _ _ _ => none

/-- `RunTAC`: copy guest `Reg[0..15]` into the low slots, unpack the CPSR
flags, run the instructions in order, apply the terminal, reassemble CPSR
and copy the low slots back to the guest registers. -/
def RunTAC (cpu : ARMulState) (st : TACRunState) (blk : TACBlock) :
    Option (ARMulState × TACRunState) := do
  let regs : Nat → Nat := fun i => if h : i < 16 then cpu.Reg ⟨i, h⟩ else st.regs i
  let fl : TACLocals :=
    ⟨cpu.Cpsr.testBit 5, cpu.Cpsr.testBit 9, cpu.Cpsr.testBit 31,
     cpu.Cpsr.testBit 30, cpu.Cpsr.testBit 29, cpu.Cpsr.testBit 28⟩
  let (regs, fl) ← runTACInsts regs fl blk.instructions
  let (regs, fl, cond) ← runTACTerminal regs fl blk.terminal
  let mask : Nat := (1 <<< 5) ||| (1 <<< 9) ||| (1 <<< 31) ||| (1 <<< 30) |||
                    (1 <<< 29) ||| (1 <<< 28)
  let cpsr := cpu.Cpsr &&& (0xFFFFFFFF ^^^ mask)
  let cpsr := cpsr ||| (if fl.tflag then 1 <<< 5 else 0) ||| (if fl.eflag then 1 <<< 9 else 0) |||
              (if fl.nflag then 1 <<< 31 else 0) ||| (if fl.zflag then 1 <<< 30 else 0) |||
              (if fl.cflag then 1 <<< 29 else 0) ||| (if fl.vflag then 1 <<< 28 else 0)
  some ({ cpu with Reg := fun i => regs i.val, Cpsr := cpsr },
        { regs := regs, cond := cond })

/-! ## Thread contexts (`SaveContext`/`LoadContext` in `ir.cpp`) -/

/-- Modelled from the spec: the layout of `Core::ThreadContext` (its defining
header is not among the provided sources; `ResetContext` shows the fields
`cpu_registers`, `sp`, `pc`, `cpsr`, and the serialization contract of spec
section 6.3 lists r0..r14, pc, cpsr, the VFP file, fpscr, fpexc). -/
structure ThreadContext where
  cpu_registers : Fin 13 → Nat
  sp : Nat
  lr : Nat
  pc : Nat
  cpsr : Nat
  fpu_registers : Fin 64 → Nat
  fpscr : Nat
  fpexc : Nat

/-- `ARM_MicroInterpreter::SaveContext`: copy the run-state into the context
(r0..r12 via memcpy, then sp/lr/pc, cpsr, the VFP file, fpscr = `VFP[1]`,
fpexc = `VFP[2]`). -/
def SaveContext (s : ARMulState) (_ctx : ThreadContext) : ThreadContext :=
  { cpu_registers := fun i => s.Reg ⟨i.val, by omega⟩,
    fpu_registers := fun i => s.ExtReg i,
    sp := s.Reg ⟨13, by omega⟩,
    lr := s.Reg ⟨14, by omega⟩,
    pc := s.Reg ⟨15, by omega⟩,
    cpsr := s.Cpsr,
    fpscr := s.VFP ⟨1, by omega⟩,
    fpexc := s.VFP ⟨2, by omega⟩ }

/-- `ARM_MicroInterpreter::LoadContext`: the inverse copy.  CP15 registers
and `VFP[0]` are not part of the context and keep their run-state values. -/
def LoadContext (s : ARMulState) (ctx : ThreadContext) : ARMulState :=
  { s with
    Reg := fun i =>
      if h : i.val < 13 then ctx.cpu_registers ⟨i.val, h⟩
      else if i.val = 13 then ctx.sp
      else if i.val = 14 then ctx.lr
      else ctx.pc,
    ExtReg := fun i => ctx.fpu_registers i,
    Cpsr := ctx.cpsr,
    VFP := fun i => if i.val = 1 then ctx.fpscr else if i.val = 2 then ctx.fpexc else s.VFP i }

/-- The save-then-load pair on a given context. -/
def saveLoad (ctx : ThreadContext) (s : ARMulState) : ARMulState :=
  LoadContext s (SaveContext s ctx)

/-! ## Helper lemmas -/

/-- Testing against the sign mask `0x80000000` is testing bit 31. -/
theorem and_bit31_ne_zero (x : Nat) : x &&& 0x80000000 ≠ 0 ↔ x.testBit 31 = true := by
  have h : x &&& 0x80000000 = (x.testBit 31).toNat * 2 ^ 31 := by
    have := Nat.and_two_pow x 31
    norm_num at this ⊢
    exact this
  rw [h]
  cases hx : x.testBit 31 <;> simp

/-- Two values agree under the sign mask iff their sign bits agree. -/
theorem and_bit31_eq (x y : Nat) :
    x &&& 0x80000000 = y &&& 0x80000000 ↔ x.testBit 31 = y.testBit 31 := by
  have hx : x &&& 0x80000000 = (x.testBit 31).toNat * 2 ^ 31 := by
    have := Nat.and_two_pow x 31; norm_num at this ⊢; exact this
  have hy : y &&& 0x80000000 = (y.testBit 31).toNat * 2 ^ 31 := by
    have := Nat.and_two_pow y 31; norm_num at this ⊢; exact this
  rw [hx, hy]
  cases x.testBit 31 <;> cases y.testBit 31 <;> simp

/-- One save-then-load pair restores the run-state exactly. -/
theorem saveLoad_eq_id (ctx : ThreadContext) (s : ARMulState) : saveLoad ctx s = s := by
  cases s with
  | mk Reg ExtReg VFP CP15 Cpsr =>
    unfold saveLoad LoadContext SaveContext
    congr 1
    · funext i
      rcases i with ⟨iv, hi⟩
      by_cases h13 : iv < 13
      · simp [h13]
      · by_cases h14 : iv = 13
        · subst h14; simp
        · by_cases h15 : iv = 14
          · subst h15; simp
          · have : iv = 15 := by omega
            subst this; simp
    · funext i
      rcases i with ⟨iv, hi⟩
      by_cases h1 : iv = 1
      · subst h1; simp
      · by_cases h2 : iv = 2
        · subst h2; simp
        · simp [h1, h2]

/-- A successful `valueType` lookup implies the index is in the arena. -/
theorem valueType_lt (a : Array MicroNode) (i : Nat) (t : MicroType)
    (h : valueType a i = some t) : i < a.size := by
  by_contra hge
  unfold valueType at h
  rw [Array.getElem?_ge a (Nat.le_of_not_lt hge)] at h
  cases h

/-- `addUse` does not disturb entries other than its target. -/
theorem addUse_getElem?_ne (a : Array MicroNode) (t o j : Nat) (h : t ≠ j) :
    (addUse a t o)[j]? = a[j]? := by
  unfold addUse
  rw [Array.getElem?_modify]
  simp [h]

/-- `addUse` preserves the arena size. -/
theorem addUse_size (a : Array MicroNode) (t o : Nat) : (addUse a t o).size = a.size :=
  Array.size_modify a t _

/-- Flag-set inclusion, flag by flag ("the requested set is a subset of the
op's default set"). -/
def MicroArmFlags.SubsetOf (a b : MicroArmFlags) : Prop :=
  (a.n = true → b.n = true) ∧ (a.z = true → b.z = true) ∧ (a.c = true → b.c = true) ∧
  (a.v = true → b.v = true) ∧ (a.q = true → b.q = true) ∧ (a.ge = true → b.ge = true)

instance (a b : MicroArmFlags) : Decidable (a.SubsetOf b) := by
  unfold MicroArmFlags.SubsetOf
  infer_instance

/-- A conjunction of a flag with a negated flag vanishes iff the first
implies the second. -/
theorem band_bnot_eq_false (x y : Bool) : (x && !y) = false ↔ (x = true → y = true) := by
  cases x <;> cases y <;> simp

/-- The builder's assertion `(write_flags & ~default) == None` is exactly
flag-set inclusion. -/
theorem inter_compl_eq_noFlags_iff (a b : MicroArmFlags) :
    a.inter b.compl = .noFlags ↔ a.SubsetOf b := by
  rcases a with ⟨an, az, ac, av, aq, age⟩
  rcases b with ⟨bn, bz, bc, bv, bq, bge⟩
  simp only [MicroArmFlags.inter, MicroArmFlags.compl, MicroArmFlags.noFlags,
    MicroArmFlags.SubsetOf, MicroArmFlags.mk.injEq, band_bnot_eq_false]

/-! ## Claim theorems -/

/-- `Except` results with decidable components compare decidably. -/
instance instDecEqExcept {ε α : Type} [DecidableEq ε] [DecidableEq α] :
    DecidableEq (Except ε α) := fun a b =>
  match a, b with
  | .ok x, .ok y =>
      if h : x = y then .isTrue (by rw [h]) else .isFalse (by intro hc; cases hc; exact h rfl)
  | .ok _, .error _ => .isFalse (by intro hc; cases hc)
  | .error _, .ok _ => .isFalse (by intro hc; cases hc)
  | .error e, .error f =>
      if h : e = f then .isTrue (by rw [h]) else .isFalse (by intro hc; cases hc; exact h rfl)

/-- The `decide` form of the executor's sign test. -/
theorem decide_and_bit31 (x : Nat) : decide (x &&& 0x80000000 ≠ 0) = x.testBit 31 := by
  cases h : x.testBit 31
  · have hz : ¬ (x &&& 0x80000000 ≠ 0) := by
      intro hne
      rw [(and_bit31_ne_zero x).mp hne] at h
      cases h
    simp [hz]
  · simp [(and_bit31_ne_zero x).mpr h]

/-- C1: end-to-end scenario 1.  With guest memory `[0xE2921003, 0xEAFFFFFE]`
at address 0 and initial state `r[i] = i` (T = false, E = false, cond = AL),
the block translated at pc = 0 is GetGPR(R2); ConstU32(3); Add with
write-flags NZCV; SetGPR(R1, the Add result); with terminator
LinkBlock(pc = 4, T = false, E = false, cond = AL); and executing the lowered
three-address form yields r[0] = 0, r[1] = 5, r[2] = 2, r[3] = 3, r[15] = 4. -/
theorem claim_C1_scenario1 :
    Translate (fun a => if a = 0 then 0xE2921003 else if a = 4 then 0xEAFFFFFE else 0)
        ⟨0, false, false, .AL⟩ =
      .ok { location := ⟨0, false, false, .AL⟩,
            nodes := #[⟨.getGPR 2, [], .noFlags, [2]⟩,
                       ⟨.constU32 3, [], .noFlags, [2]⟩,
                       ⟨.inst .Add, [0, 1], .NZCV, [3]⟩,
                       ⟨.setGPR 1, [2], .noFlags, []⟩],
            instructions := [0, 1, 2, 3],
            terminal := .LinkBlock ⟨4, false, false, .AL⟩,
            cycles_consumed := 1 }
  ∧ ((TranslateToTAC (fun a => if a = 0 then 0xE2921003 else if a = 4 then 0xEAFFFFFE else 0)
        ⟨0, false, false, .AL⟩).bind
      (RunTAC ⟨fun i => i.val, fun _ => 0, fun _ => 0, fun _ => 0, 0⟩ ⟨fun _ => 0, .AL⟩)).map
        (fun p => (p.1.Reg 0, p.1.Reg 1, p.1.Reg 2, p.1.Reg 3, p.1.Reg 15)) =
      some (0, 5, 2, 3, 4) := by
  exact ⟨by decide, by decide⟩

/-- C3: when the lowered executor runs an `Add` whose destination slot is
distinct from its argument slots, the destination receives `a + b` modulo
2^32, all other slots are unchanged, and the flags are updated exactly when
the instruction's write-flags bit is set, as N = bit 31 of the result,
Z = (result = 0), C = (result < a), V = (sign(a) = sign(b) and
sign(result) ≠ sign(a)). -/
theorem claim_C3_executor_add (regs : Nat → Nat) (fl : TACLocals) (inst : TACInst)
    (hop : inst.op = .Add) (hda : inst.dest ≠ inst.a) (hdb : inst.dest ≠ inst.b) :
    ∃ regs2 fl2, runTACInst regs fl inst = some (regs2, fl2) ∧
      regs2 inst.dest = (regs inst.a + regs inst.b) % U32LIMIT ∧
      (∀ k, k ≠ inst.dest → regs2 k = regs k) ∧
      (inst.wfbit = true →
        fl2 = { fl with
          nflag := ((regs inst.a + regs inst.b) % U32LIMIT).testBit 31,
          zflag := decide ((regs inst.a + regs inst.b) % U32LIMIT = 0),
          cflag := decide ((regs inst.a + regs inst.b) % U32LIMIT < regs inst.a),
          vflag := decide ((regs inst.a).testBit 31 = (regs inst.b).testBit 31 ∧
            ¬ ((regs inst.a + regs inst.b) % U32LIMIT).testBit 31 = (regs inst.a).testBit 31) })
      ∧ (inst.wfbit = false → fl2 = fl) := by
  rcases inst with ⟨op, wfbit, dest, a, b, imm32⟩
  simp only at hop hda hdb
  subst hop
  have hupd_d : updateFn regs dest ((regs a + regs b) % U32LIMIT) dest =
      (regs a + regs b) % U32LIMIT := by simp [updateFn]
  have hupd_a : updateFn regs dest ((regs a + regs b) % U32LIMIT) a = regs a := by
    simp [updateFn, Ne.symm hda]
  have hupd_b : updateFn regs dest ((regs a + regs b) % U32LIMIT) b = regs b := by
    simp [updateFn, Ne.symm hdb]
  cases wfbit with
  | false =>
    refine ⟨_, _, rfl, hupd_d, ?_, by simp, fun _ => rfl⟩
    intro k hk
    simp [updateFn, hk]
  | true =>
    refine ⟨_, _, rfl, ?_, ?_, ?_, by simp⟩
    · simpa [runTACInst] using hupd_d
    · intro k hk
      simp [runTACInst, updateFn, hk]
    · intro _
      simp only [runTACInst]
      congr 1
      · rw [hupd_d, decide_and_bit31]
      · rw [hupd_d]
      · rw [hupd_d, hupd_a]
      · rw [hupd_d, hupd_a, hupd_b]
        apply decide_eq_decide.mpr
        constructor
        · rintro ⟨h1, h2⟩
          exact ⟨(and_bit31_eq _ _).mp h1, fun hc => h2 ((and_bit31_eq _ _).mpr hc)⟩
        · rintro ⟨h1, h2⟩
          exact ⟨(and_bit31_eq _ _).mpr h1, fun hc => h2 ((and_bit31_eq _ _).mp hc)⟩

/-- C3 witness: a concrete `Add` with write-flags bit set, at register file
r[0] = 3, r[1] = 2^32 - 1, destination slot 2. -/
theorem claim_C3_witness :
    (⟨.Add, true, 2, 0, 1, 0⟩ : TACInst).op = .Add ∧ (2 : Nat) ≠ 0 ∧ (2 : Nat) ≠ 1 ∧
    ∃ regs2 fl2,
      runTACInst (fun k => if k = 0 then 3 else if k = 1 then 4294967295 else 0)
        ⟨false, false, false, false, false, false⟩ ⟨.Add, true, 2, 0, 1, 0⟩ =
        some (regs2, fl2) ∧
      regs2 2 = 2 ∧ (∀ k, k ≠ 2 → regs2 k =
        (fun k => if k = 0 then 3 else if k = 1 then 4294967295 else 0) k) ∧
      fl2 = ⟨false, false, false, false, true, false⟩ := by
  refine ⟨rfl, by decide, by decide, ?_⟩
  obtain ⟨regs2, fl2, h1, h2, h3, h4, h5⟩ :=
    claim_C3_executor_add (fun k => if k = 0 then 3 else if k = 1 then 4294967295 else 0)
      ⟨false, false, false, false, false, false⟩ ⟨.Add, true, 2, 0, 1, 0⟩ rfl
      (by decide) (by decide)
  refine ⟨regs2, fl2, h1, by simpa using h2, h3, ?_⟩
  rw [h4 rfl]
  decide

/-- `RunTAC` on a terminal the executor cannot handle: the `Interpret` branch
is `ASSERT(false)`. -/
theorem runTACTerminal_interpret (regs : Nat → Nat) (fl : TACLocals)
    (next : LocationDescriptor) : runTACTerminal regs fl (.Interpret next) = none := rfl

/-- C7 counterexample: the executor does not return control to dispatch on an
`Interpret` terminal; running such a block hits `ASSERT(false)` (modelled as
`none`) at a concrete block with terminator `Interpret(pc = 0)`. -/
theorem claim_C7_counterexample :
    RunTAC ⟨fun i => i.val, fun _ => 0, fun _ => 0, fun _ => 0, 0⟩ ⟨fun _ => 0, .AL⟩
      ⟨[], .Interpret ⟨0, false, false, .AL⟩, 1⟩ = none := rfl

/-- C7 (amended): when the executor runs a block whose terminator is
`Interpret`, it fails the fatal assertion in the terminal dispatch
(`ASSERT(false); // Unimplemented for now.`) instead of returning control to
dispatch. -/
theorem claim_C7_interpret_is_fatal (cpu : ARMulState) (st : TACRunState) (blk : TACBlock)
    (next : LocationDescriptor) (h : blk.terminal = .Interpret next) :
    RunTAC cpu st blk = none := by
  simp only [RunTAC]
  cases runTACInsts (fun i => if h2 : i < 16 then cpu.Reg ⟨i, h2⟩ else st.regs i)
      ⟨cpu.Cpsr.testBit 5, cpu.Cpsr.testBit 9, cpu.Cpsr.testBit 31,
       cpu.Cpsr.testBit 30, cpu.Cpsr.testBit 29, cpu.Cpsr.testBit 28⟩ blk.instructions with
  | none => rfl
  | some p =>
    rcases p with ⟨regs, fl⟩
    rw [h]
    rfl

/-- C7 witness for the amended theorem: a concrete block with an `Interpret`
terminal at pc = 4. -/
theorem claim_C7_witness :
    (⟨[], .Interpret ⟨4, false, false, .AL⟩, 0⟩ : TACBlock).terminal =
      .Interpret ⟨4, false, false, .AL⟩ ∧
    RunTAC ⟨fun _ => 7, fun _ => 0, fun _ => 0, fun _ => 0, 0⟩ ⟨fun _ => 1, .AL⟩
      ⟨[], .Interpret ⟨4, false, false, .AL⟩, 0⟩ = none :=
  ⟨rfl, claim_C7_interpret_is_fatal _ _ _ ⟨4, false, false, .AL⟩ rfl⟩

/-- C8: when the builder emits an instruction with a requested write-flags
set: if the requested set is a subset of the op's default write set, the
instruction is created with exactly the requested set and the builder's
running `flags_written` union is extended by it; if the requested set
contains any flag outside the default set, the fatal assertion fires
(`none`).  Stated for both `MicroBuilder::Inst` overloads. -/
theorem claim_C8_builder_flag_restriction :
    (∀ (b : MicroBuilder) (op : MicroOp) (x y : Nat) (wf : MicroArmFlags)
       (info : MicroOpInfo) (t0 t1 : MicroType),
       GetMicroOpInfo op = some info → info.arg_types = [t0, t1] →
       valueType b.block.nodes x = some t0 → valueType b.block.nodes y = some t1 →
       ((wf.SubsetOf info.default_write_flags →
           ∃ b2 idx nd, b.Inst2 op x y wf = some (b2, idx) ∧
             b2.block.nodes[idx]? = some nd ∧ nd.kind = .inst op ∧ nd.write_flags = wf ∧
             b2.flags_written = b.flags_written.union wf)
        ∧ (¬ wf.SubsetOf info.default_write_flags → b.Inst2 op x y wf = none)))
  ∧ (∀ (b : MicroBuilder) (op : MicroOp) (x : Nat) (wf : MicroArmFlags)
       (info : MicroOpInfo) (t0 : MicroType),
       GetMicroOpInfo op = some info → info.arg_types = [t0] →
       valueType b.block.nodes x = some t0 →
       ((wf.SubsetOf info.default_write_flags →
           ∃ b2 idx nd, b.Inst1 op x wf = some (b2, idx) ∧
             b2.block.nodes[idx]? = some nd ∧ nd.kind = .inst op ∧ nd.write_flags = wf ∧
             b2.flags_written = b.flags_written.union wf)
        ∧ (¬ wf.SubsetOf info.default_write_flags → b.Inst1 op x wf = none))) := by
  constructor
  · intro b op x y wf info t0 t1 hinfo hargs hx hy
    have hxlt := valueType_lt _ _ _ hx
    have hylt := valueType_lt _ _ _ hy
    constructor
    · intro hsub
      have heq : b.Inst2 op x y wf =
          some ({ block := { b.block with
                    nodes := (addUse (addUse (b.block.nodes.push
                        ⟨.inst op, [x, y], info.default_write_flags, []⟩) x b.block.nodes.size)
                        y b.block.nodes.size).modify b.block.nodes.size
                        (fun nd => { nd with write_flags := wf }),
                    instructions := b.block.instructions ++ [b.block.nodes.size] },
                  flags_written := b.flags_written.union wf }, b.block.nodes.size) := by
        simp only [MicroBuilder.Inst2, hinfo, hargs, Option.bind_eq_bind, Option.some_bind]
        rw [if_pos ⟨hx, hy⟩, if_pos ((inter_compl_eq_noFlags_iff _ _).mpr hsub)]
      refine ⟨_, _, ⟨.inst op, [x, y], wf, []⟩, heq, ?_, rfl, rfl, rfl⟩
      rw [Array.getElem?_modify, if_pos rfl,
        addUse_getElem?_ne _ _ _ _ (Nat.ne_of_lt hylt),
        addUse_getElem?_ne _ _ _ _ (Nat.ne_of_lt hxlt), Array.getElem?_push_eq]
      rfl
    · intro hnsub
      simp only [MicroBuilder.Inst2, hinfo, hargs, Option.bind_eq_bind, Option.some_bind]
      rw [if_pos ⟨hx, hy⟩, if_neg (fun hc => hnsub ((inter_compl_eq_noFlags_iff _ _).mp hc))]
  · intro b op x wf info t0 hinfo hargs hx
    have hxlt := valueType_lt _ _ _ hx
    constructor
    · intro hsub
      have heq : b.Inst1 op x wf =
          some ({ block := { b.block with
                    nodes := (addUse (b.block.nodes.push
                        ⟨.inst op, [x], info.default_write_flags, []⟩) x b.block.nodes.size).modify
                        b.block.nodes.size (fun nd => { nd with write_flags := wf }),
                    instructions := b.block.instructions ++ [b.block.nodes.size] },
                  flags_written := b.flags_written.union wf }, b.block.nodes.size) := by
        simp only [MicroBuilder.Inst1, hinfo, hargs, Option.bind_eq_bind, Option.some_bind]
        rw [if_pos hx, if_pos ((inter_compl_eq_noFlags_iff _ _).mpr hsub)]
      refine ⟨_, _, ⟨.inst op, [x], wf, []⟩, heq, ?_, rfl, rfl, rfl⟩
      rw [Array.getElem?_modify, if_pos rfl,
        addUse_getElem?_ne _ _ _ _ (Nat.ne_of_lt hxlt), Array.getElem?_push_eq]
      rfl
    · intro hnsub
      simp only [MicroBuilder.Inst1, hinfo, hargs, Option.bind_eq_bind, Option.some_bind]
      rw [if_pos hx, if_neg (fun hc => hnsub ((inter_compl_eq_noFlags_iff _ _).mp hc))]

/-- A two-value builder used to exercise the flag-restriction assertion. -/
def twoConstBuilder : MicroBuilder :=
  ⟨⟨⟨0, false, false, .AL⟩,
    #[⟨.constU32 1, [], .noFlags, []⟩, ⟨.constU32 2, [], .noFlags, []⟩],
    [0, 1], .ReturnToDispatch, 0⟩, .noFlags⟩

/-- C8 witness: on a builder holding two `U32` values, requesting `NZC`
(a subset of `Add`'s default NZCV) succeeds with exactly that set, and
requesting all six flags (which exceeds NZCV) hits the assertion. -/
theorem claim_C8_witness :
    GetMicroOpInfo .Add = some ⟨.U32, .noFlags, .NZCV, [.U32, .U32]⟩ ∧
    valueType twoConstBuilder.block.nodes 0 = some .U32 ∧
    valueType twoConstBuilder.block.nodes 1 = some .U32 ∧
    MicroArmFlags.NZC.SubsetOf .NZCV ∧
    (∃ b2 idx nd,
      twoConstBuilder.Inst2 .Add 0 1 .NZC = some (b2, idx) ∧
        b2.block.nodes[idx]? = some nd ∧ nd.kind = .inst .Add ∧ nd.write_flags = .NZC ∧
        b2.flags_written = MicroArmFlags.noFlags.union .NZC) ∧
    ¬ (⟨true, true, true, true, true, true⟩ : MicroArmFlags).SubsetOf .NZCV ∧
    twoConstBuilder.Inst2 .Add 0 1 ⟨true, true, true, true, true, true⟩ = none := by
  refine ⟨rfl, rfl, rfl, by decide, ?_, by decide, ?_⟩
  · exact (claim_C8_builder_flag_restriction.1 twoConstBuilder .Add 0 1 .NZC
      ⟨.U32, .noFlags, .NZCV, [.U32, .U32]⟩ .U32 .U32 rfl rfl rfl rfl).1 (by decide)
  · exact (claim_C8_builder_flag_restriction.1 twoConstBuilder .Add 0 1
      ⟨true, true, true, true, true, true⟩
      ⟨.U32, .noFlags, .NZCV, [.U32, .U32]⟩ .U32 .U32 rfl rfl rfl rfl).2 (by decide)

/-- Bind in the `Except` monad cannot introduce an error neither side can
produce. -/
theorem except_bind_ne_error {α β : Type} {E : TErr} (x : Except TErr α)
    (f : α → Except TErr β) (hx : x ≠ .error E) (hf : ∀ a, f a ≠ .error E) :
    x >>= f ≠ .error E := by
  cases x with
  | error e =>
      intro hc
      exact hx (by cases hc; rfl)
  | ok a => exact hf a

/-- No visitor method reaches the out-of-bounds `SetReg` write: `ADD_imm`
routes a PC destination to `ALUWritePC` and otherwise writes a register
strictly below 15. -/
theorem visit_ne_oob (st : ArmTranslator) (di : DecodedInst) :
    st.Visit di ≠ .error .oobSetReg := by
  cases di with
  | B cond imm24 => intro hc; cases hc
  | MOV_reg cond S d imm5 m => intro hc; cases hc
  | unhandled => intro hc; cases hc
  | ADD_imm cond S n d rotate imm8 =>
    simp only [ArmTranslator.Visit, ArmTranslator.visitADDimm, ArmTranslator.ALUWritePC,
      ArmTranslator.BranchWritePCVal, ArmTranslator.SetReg]
    split
    · intro hc; cases hc
    · split
      · intro hc; cases hc
      · split
        · split
          · intro hc; cases hc
          · intro hc; cases hc
        · split
          · intro hc; cases hc
          · rename_i hdne hnlt
            exfalso
            have h16 := d.isLt
            have hpc : (ArmReg.PC).val = 15 := rfl
            exact hdne (Fin.ext (by omega))

/-- Translating one instruction never reaches the out-of-bounds `SetReg`. -/
theorem tsai_ne_oob (mem : Nat → Nat) (st : ArmTranslator) :
    TranslateSingleArmInstruction mem st ≠ .error .oobSetReg := by
  unfold TranslateSingleArmInstruction
  cases DecodeArm (mem (st.current.arm_pc &&& 0xFFFFFFFC)) with
  | none => intro hc; cases hc
  | some di =>
    exact except_bind_ne_error _ _ (visit_ne_oob st di) (fun a hc => by cases hc)

/-- The translation loop never reaches the out-of-bounds `SetReg`. -/
theorem translateLoop_ne_oob (mem : Nat → Nat) :
    ∀ (fuel : Nat) (st : ArmTranslator), translateLoop mem fuel st ≠ .error .oobSetReg := by
  intro fuel
  induction fuel with
  | zero => intro st hc; cases hc
  | succ n ih =>
    intro st
    simp only [translateLoop]
    refine except_bind_ne_error _ _ (tsai_ne_oob mem _) ?_
    intro st2
    split
    · exact ih st2
    · intro hc; cases hc

/-- C10: `ArmTranslator::SetReg` indexes the 15-element cached-register array
directly with `reg` and has no special case for the PC, so its access is in
bounds exactly when `reg ≠ R15`; and the out-of-bounds access is unreachable
from `Translate`, because `ADD_imm` (the only visitor that calls `SetReg`)
routes a PC destination to `ALUWritePC` instead. -/
theorem claim_C10_setreg_pc_unreachable :
    (∀ (st : ArmTranslator) (v : Nat), st.SetReg ArmReg.PC v = .error .oobSetReg)
  ∧ (∀ (st : ArmTranslator) (reg : ArmReg) (v : Nat), reg ≠ ArmReg.PC →
       ∃ st2, st.SetReg reg v = .ok st2)
  ∧ (∀ (mem : Nat → Nat) (loc : LocationDescriptor),
       TranslateFull mem loc ≠ .error .oobSetReg) := by
  refine ⟨?_, ?_, ?_⟩
  · intro st v
    have hge : ¬ ((ArmReg.PC).val < 15) := by decide
    unfold ArmTranslator.SetReg
    rw [if_neg hge]
  · intro st reg v hne
    have hlt : reg.val < 15 := by
      have h16 := reg.isLt
      have hpc : (ArmReg.PC).val = 15 := rfl
      have : reg.val ≠ 15 := fun hv => hne (Fin.ext (by omega))
      omega
    exact ⟨{ st with reg_values := st.reg_values.setD reg.val (some v) }, by
      unfold ArmTranslator.SetReg
      rw [if_pos hlt]⟩
  · intro mem loc
    unfold TranslateFull
    refine except_bind_ne_error _ _ (translateLoop_ne_oob mem _ _) ?_
    intro stL
    split <;> dsimp only <;> split <;> intro hc <;> cases hc

/-- C10 witness: writing register 15 through `SetReg` is the out-of-bounds
access, a non-PC register write succeeds, and a whole translation (of
scenario 1's memory) does not hit it. -/
theorem claim_C10_witness :
    (mkTranslator ⟨0, false, false, .AL⟩).SetReg ArmReg.PC 0 = .error .oobSetReg ∧
    (3 : ArmReg) ≠ ArmReg.PC ∧
    (∃ st2, (mkTranslator ⟨0, false, false, .AL⟩).SetReg 3 0 = .ok st2) ∧
    TranslateFull (fun a => if a = 0 then 0xE2921003 else if a = 4 then 0xEAFFFFFE else 0)
      ⟨0, false, false, .AL⟩ ≠ .error .oobSetReg :=
  ⟨claim_C10_setreg_pc_unreachable.1 _ 0, by decide,
   claim_C10_setreg_pc_unreachable.2.1 _ 3 0 (by decide),
   claim_C10_setreg_pc_unreachable.2.2 _ _⟩

/-- One unfolding of the translation loop. -/
theorem translateLoop_succ (mem : Nat → Nat) (fuel : Nat) (st : ArmTranslator) :
    translateLoop mem (fuel + 1) st =
      (TranslateSingleArmInstruction mem
          { st with instructions_translated := st.instructions_translated + 1 }) >>= fun st2 =>
        if st2.stop_compilation = false ∧ st2.current.arm_pc &&& 0xFFF ≠ 0
        then translateLoop mem fuel st2 else .ok st2 := rfl

/-- The loop exits with the stop sentinel set or at a page boundary. -/
theorem translateLoop_exit (mem : Nat → Nat) :
    ∀ (fuel : Nat) (st st' : ArmTranslator), translateLoop mem fuel st = .ok st' →
      st'.stop_compilation = true ∨ st'.current.arm_pc &&& 0xFFF = 0 := by
  intro fuel
  induction fuel with
  | zero => intro st st' h; cases h
  | succ n ih =>
    intro st st' h
    rw [translateLoop_succ] at h
    cases htsai : TranslateSingleArmInstruction mem
        { st with instructions_translated := st.instructions_translated + 1 } with
    | error e => rw [htsai] at h; cases h
    | ok st2 =>
      rw [htsai] at h
      simp only [Bind.bind, Except.bind] at h
      split at h
      · exact ih st2 st' h
      · rename_i hcond
        injection h with h2
        rw [← h2]
        rcases not_and_or.mp hcond with ha | hb
        · left
          rcases Bool.eq_false_or_eq_true st2.stop_compilation with h1 | h1
          · exact h1
          · exact absurd h1 ha
        · right
          exact not_not.mp hb

/-- A successful builder `SetGPR` leaves the terminal unchanged. -/
theorem setGPR_terminal (b b2 : MicroBuilder) (r : ArmReg) (v i2 : Nat)
    (h : b.SetGPR r v = some (b2, i2)) : b2.block.terminal = b.block.terminal := by
  unfold MicroBuilder.SetGPR at h
  split at h
  · cases h; rfl
  · cases h

/-- One flush step leaves the terminal unchanged. -/
theorem flushStep_terminal (st st' : ArmTranslator) (i : Fin 15)
    (h : flushStep st i = some st') : st'.ir.block.terminal = st.ir.block.terminal := by
  unfold flushStep at h
  split at h
  · split at h
    · cases h
    · split at h
      · split at h
        · rename_i b2 i2 hsg
          cases h
          exact setGPR_terminal _ _ _ _ _ hsg
        · cases h
      · cases h; rfl
  · cases h; rfl

/-- The register write-back loop leaves the terminal unchanged. -/
theorem flushFold_terminal :
    ∀ (l : List (Fin 15)) (st st' : ArmTranslator),
      List.foldlM flushStep st l = some st' →
        st'.ir.block.terminal = st.ir.block.terminal := by
  intro l
  induction l with
  | nil => intro st st' h; cases h; rfl
  | cons i rest ih =>
    intro st st' h
    rw [show List.foldlM flushStep st (i :: rest) =
          (flushStep st i) >>= fun st1 => List.foldlM flushStep st1 rest from rfl] at h
    cases hstep : flushStep st i with
    | none => rw [hstep] at h; cases h
    | some st1 =>
      rw [hstep] at h
      simp only [Option.bind_eq_bind, Option.some_bind] at h
      rw [ih st1 st' h]
      exact flushStep_terminal st st1 i hstep

/-- A translator whose cached-register map is still empty flushes to itself. -/
theorem flushRegs_empty (st : ArmTranslator) (h : st.reg_values = Array.mkArray 15 none) :
    st.flushRegs = some st := by
  rcases st with ⟨ir, current, it, stop, rv⟩
  simp only at h
  subst h
  rfl

/-- C5: for every translation that exits the loop at a 4 KiB page boundary
with `stop_compilation` still false, the returned block's terminator is
`LinkBlock(current)` for the loop-exit cursor, which sits on a page
boundary. -/
theorem claim_C5_page_boundary (mem : Nat → Nat) (loc : LocationDescriptor)
    (blk : MicroBlock) (stL stF : ArmTranslator)
    (h : TranslateFull mem loc = .ok (blk, stL, stF))
    (hstop : stL.stop_compilation = false) :
    blk.terminal = .LinkBlock stL.current ∧ stL.current.arm_pc &&& 0xFFF = 0 := by
  unfold TranslateFull at h
  cases hl : translateLoop mem PAGE_FUEL (mkTranslator loc) with
  | error e => rw [hl] at h; cases h
  | ok stL0 =>
    rw [hl] at h
    simp only [Bind.bind, Except.bind] at h
    have hexit := translateLoop_exit mem PAGE_FUEL (mkTranslator loc) stL0 hl
    by_cases hs : stL0.stop_compilation = true
    · rw [if_pos hs] at h
      cases hfl : stL0.flushRegs with
      | none => rw [hfl] at h; cases h
      | some stf =>
        rw [hfl] at h
        simp only [Except.ok.injEq, Prod.mk.injEq] at h
        rcases h with ⟨h1, h2, h3⟩
        rw [← h2] at hstop
        rw [hs] at hstop
        cases hstop
    · rw [if_neg hs] at h
      cases hfl : ({ stL0 with
          ir := stL0.ir.SetTerm (.LinkBlock stL0.current) } : ArmTranslator).flushRegs with
      | none => rw [hfl] at h; cases h
      | some stf =>
        rw [hfl] at h
        simp only [Except.ok.injEq, Prod.mk.injEq] at h
        rcases h with ⟨h1, h2, h3⟩
        subst h2
        constructor
        · rw [← h1]
          simp only []
          exact flushFold_terminal _ _ _ hfl
        · rcases hexit with hex | hex
          · exact absurd hex hs
          · exact hex

/-- A page of identical `adds r1, r2, #3` words. -/
def pageMem : Nat → Nat := fun _ => 0xE2921003

/-- A location one word before a 4 KiB page boundary. -/
def pageLoc : LocationDescriptor := ⟨4092, false, false, .AL⟩

/-- The block translated at `pageLoc`. -/
def pageBlk : MicroBlock :=
  { location := ⟨4092, false, false, .AL⟩,
    nodes := #[⟨.getGPR 2, [], .noFlags, [2]⟩, ⟨.constU32 3, [], .noFlags, [2]⟩,
               ⟨.inst .Add, [0, 1], .NZCV, [3]⟩, ⟨.setGPR 1, [2], .noFlags, []⟩],
    instructions := [0, 1, 2, 3],
    terminal := .LinkBlock ⟨4096, false, false, .AL⟩,
    cycles_consumed := 1 }

/-- The (pre-flush) block under construction at loop exit at `pageLoc`. -/
def pageBlkPre : MicroBlock :=
  { location := ⟨4092, false, false, .AL⟩,
    nodes := #[⟨.getGPR 2, [], .noFlags, [2]⟩, ⟨.constU32 3, [], .noFlags, [2]⟩,
               ⟨.inst .Add, [0, 1], .NZCV, []⟩],
    instructions := [0, 1, 2],
    terminal := .ReturnToDispatch,
    cycles_consumed := 0 }

/-- The loop-exit translator state at `pageLoc`. -/
def pageStL : ArmTranslator :=
  { ir := { block := pageBlkPre, flags_written := .NZCV },
    current := ⟨4096, false, false, .AL⟩,
    instructions_translated := 1, stop_compilation := false,
    reg_values := #[none, some 2, some 0, none, none, none, none, none,
                    none, none, none, none, none, none, none] }

/-- The final translator state at `pageLoc`. -/
def pageStF : ArmTranslator :=
  { ir := { block := pageBlk, flags_written := .NZCV },
    current := ⟨4096, false, false, .AL⟩,
    instructions_translated := 1, stop_compilation := true,
    reg_values := #[none, some 2, some 0, none, none, none, none, none,
                    none, none, none, none, none, none, none] }

/-- C5 witness: translating a page of `adds` starting one word before the
boundary stops at the boundary with terminator `LinkBlock(pc = 0x1000)`. -/
theorem claim_C5_witness :
    TranslateFull pageMem pageLoc = .ok (pageBlk, pageStL, pageStF) ∧
    pageStL.stop_compilation = false ∧
    pageBlk.terminal = .LinkBlock pageStL.current ∧
    pageStL.current.arm_pc &&& 0xFFF = 0 := by
  have h : TranslateFull pageMem pageLoc = .ok (pageBlk, pageStL, pageStF) := by decide
  exact ⟨h, rfl, claim_C5_page_boundary pageMem pageLoc pageBlk pageStL pageStF h rfl⟩

/-- The translator state after a failed condition check: the instruction
counter is rewound by one, the terminator becomes `LinkBlock` of the current
location with its condition overridden, and compilation stops. -/
def rewound (st : ArmTranslator) (cond : Cond) : ArmTranslator :=
  { st with
    instructions_translated := st.instructions_translated - 1,
    ir := st.ir.SetTerm (.LinkBlock { st.current with cond := cond }),
    stop_compilation := true }

/-- A failed condition check in `B` rewinds. -/
theorem visitB_rewound (st : ArmTranslator) (c : Cond) (imm24 : Nat)
    (h : ¬ (c = st.current.cond ∧ st.ir.flags_written = .noFlags)) :
    st.visitB c imm24 = rewound st c := by
  simp only [ArmTranslator.visitB, ArmTranslator.ConditionPassed, if_neg h]
  rfl

/-- A failed condition check in `ADD_imm` rewinds. -/
theorem visitADDimm_rewound (st : ArmTranslator) (c : Cond) (S : Bool) (n d : ArmReg)
    (rot imm8 : Nat)
    (h : ¬ (c = st.current.cond ∧ st.ir.flags_written = .noFlags)) :
    st.visitADDimm c S n d rot imm8 = .ok (rewound st c) := by
  simp only [ArmTranslator.visitADDimm, ArmTranslator.ConditionPassed, if_neg h]
  rfl

/-- A matching condition with no flags written passes for free. -/
theorem conditionPassed_free (st : ArmTranslator) (c : Cond)
    (h1 : c = st.current.cond) (h2 : st.ir.flags_written = .noFlags) :
    st.ConditionPassed c = (true, st) := by
  simp only [ArmTranslator.ConditionPassed, if_pos (And.intro h1 h2)]

/-- A first instruction whose condition check fails yields the
zero-instruction `LinkBlock` block. -/
theorem translate_first_cond_mismatch (mem : Nat → Nat) (loc : LocationDescriptor) (c : Cond)
    (hc : c ≠ loc.cond)
    (hdec : (∃ imm24, DecodeArm (mem (loc.arm_pc &&& 0xFFFFFFFC)) = some (.B c imm24)) ∨
      (∃ S n d rot imm8,
        DecodeArm (mem (loc.arm_pc &&& 0xFFFFFFFC)) = some (.ADD_imm c S n d rot imm8))) :
    Translate mem loc =
      .ok { location := loc,
            nodes := #[],
            instructions := [],
            terminal := .LinkBlock { loc with cond := c },
            cycles_consumed := 0 } := by
  have hnc : ¬ (c = ({ mkTranslator loc with instructions_translated := 1 } :
      ArmTranslator).current.cond ∧
      ({ mkTranslator loc with instructions_translated := 1 } :
        ArmTranslator).ir.flags_written = .noFlags) := by
    intro hand
    exact hc hand.1
  have hTSAI : TranslateSingleArmInstruction mem
      { mkTranslator loc with instructions_translated := 1 } =
      .ok { rewound { mkTranslator loc with instructions_translated := 1 } c with
            current := { loc with arm_pc := (loc.arm_pc + 4) % U32LIMIT } } := by
    unfold TranslateSingleArmInstruction
    rcases hdec with ⟨imm24, hB⟩ | ⟨S, n, d, rot, imm8, hA⟩
    · rw [show (({ mkTranslator loc with instructions_translated := 1 } :
          ArmTranslator).current.arm_pc &&& 0xFFFFFFFC) = (loc.arm_pc &&& 0xFFFFFFFC)
          from rfl, hB]
      simp only [ArmTranslator.Visit]
      rw [visitB_rewound _ _ _ hnc]
      rfl
    · rw [show (({ mkTranslator loc with instructions_translated := 1 } :
          ArmTranslator).current.arm_pc &&& 0xFFFFFFFC) = (loc.arm_pc &&& 0xFFFFFFFC)
          from rfl, hA]
      simp only [ArmTranslator.Visit]
      rw [visitADDimm_rewound _ _ _ _ _ _ _ hnc]
      rfl
  have hloop : translateLoop mem PAGE_FUEL (mkTranslator loc) =
      .ok { rewound { mkTranslator loc with instructions_translated := 1 } c with
            current := { loc with arm_pc := (loc.arm_pc + 4) % U32LIMIT } } := by
    have h1 : translateLoop mem PAGE_FUEL (mkTranslator loc) =
        (TranslateSingleArmInstruction mem
            { mkTranslator loc with instructions_translated := 1 }) >>= fun st2 =>
          if st2.stop_compilation = false ∧ st2.current.arm_pc &&& 0xFFF ≠ 0
          then translateLoop mem 1023 st2 else .ok st2 := rfl
    rw [h1, hTSAI]
    simp only [Bind.bind, Except.bind]
    rw [if_neg (fun hand => by cases hand.1)]
  have h2 : Translate mem loc = Except.map (fun p => p.1) (TranslateFull mem loc) := rfl
  rw [h2]
  unfold TranslateFull
  rw [hloop]
  simp only [Bind.bind, Except.bind]
  have hst : ({ rewound { mkTranslator loc with instructions_translated := 1 } c with
      current := { loc with arm_pc := (loc.arm_pc + 4) % U32LIMIT } } :
      ArmTranslator).stop_compilation = true := rfl
  rw [if_pos hst]
  rw [flushRegs_empty _ rfl]
  rfl

/-- C2 counterexample: the first instruction `moveq r0, r1` (word
`0x01A00001`) at pc = 0 with current cond = AL is a conditional instruction,
but the translator's `MOV_reg` visitor falls back to the interpreter without
any condition check: the block's terminator is `Interpret(pc = 0)` with
`cycles_consumed = 1`, not the claimed `LinkBlock(pc = 0, cond = EQ)` with a
rewound instruction count. -/
theorem claim_C2_counterexample :
    Translate (fun _ => 0x01A00001) ⟨0, false, false, .AL⟩ =
      .ok { location := ⟨0, false, false, .AL⟩, nodes := #[], instructions := [],
            terminal := .Interpret ⟨0, false, false, .AL⟩, cycles_consumed := 1 } ∧
    (MicroTerminal.Interpret ⟨0, false, false, .AL⟩ ≠
      .LinkBlock ⟨0, false, false, .EQ⟩) :=
  ⟨by decide, by decide⟩

/-- C2 (amended): for the visitors that perform the condition check (`B` and
`ADD_imm`; every other visitor method falls back to the interpreter without
checking its condition): a condition equal to `current.cond` with no flags
written since block entry passes for free, and otherwise the translator
rewinds `instructions_translated` by one, sets the terminator to `LinkBlock`
of the current location with `cond` overridden, and stops; in particular a
first `B` or `ADD_imm` whose condition differs from `current.cond` yields a
zero-instruction block with terminator `LinkBlock(current with cond
overridden)` and zero cycles. -/
theorem claim_C2_condition_handling :
    (∀ (st : ArmTranslator) (c : Cond), c = st.current.cond →
       st.ir.flags_written = .noFlags → st.ConditionPassed c = (true, st))
  ∧ (∀ (st : ArmTranslator) (c : Cond) (imm24 : Nat),
       ¬ (c = st.current.cond ∧ st.ir.flags_written = .noFlags) →
       st.visitB c imm24 = rewound st c)
  ∧ (∀ (st : ArmTranslator) (c : Cond) (S : Bool) (n d : ArmReg) (rot imm8 : Nat),
       ¬ (c = st.current.cond ∧ st.ir.flags_written = .noFlags) →
       st.visitADDimm c S n d rot imm8 = .ok (rewound st c))
  ∧ (∀ (mem : Nat → Nat) (loc : LocationDescriptor) (c : Cond),
       c ≠ loc.cond →
       ((∃ imm24, DecodeArm (mem (loc.arm_pc &&& 0xFFFFFFFC)) = some (.B c imm24)) ∨
        (∃ S n d rot imm8,
          DecodeArm (mem (loc.arm_pc &&& 0xFFFFFFFC)) = some (.ADD_imm c S n d rot imm8))) →
       Translate mem loc =
         .ok { location := loc,
               nodes := #[],
               instructions := [],
               terminal := .LinkBlock { loc with cond := c },
               cycles_consumed := 0 }) :=
  ⟨conditionPassed_free, visitB_rewound, visitADDimm_rewound, translate_first_cond_mismatch⟩

/-- C2 witness: `beq +0` (word `0x0A000000`) at pc = 0 with current
cond = AL yields a zero-instruction block linking to pc = 0 with cond EQ. -/
theorem claim_C2_witness :
    Cond.EQ ≠ (⟨0, false, false, .AL⟩ : LocationDescriptor).cond ∧
    DecodeArm ((fun _ => 0x0A000000 : Nat → Nat)
      ((⟨0, false, false, .AL⟩ : LocationDescriptor).arm_pc &&& 0xFFFFFFFC)) =
      some (.B .EQ 0) ∧
    Translate (fun _ => 0x0A000000) ⟨0, false, false, .AL⟩ =
      .ok { location := ⟨0, false, false, .AL⟩, nodes := #[], instructions := [],
            terminal := .LinkBlock ⟨0, false, false, .EQ⟩, cycles_consumed := 0 } := by
  refine ⟨by decide, by decide, ?_⟩
  exact claim_C2_condition_handling.2.2.2 (fun _ => 0x0A000000) ⟨0, false, false, .AL⟩ .EQ
    (by decide) (Or.inl ⟨0, by decide⟩)

/-! ## The register flush at the end of `Translate` (claim C4) -/

/-- A successful arena lookup is in bounds. -/
theorem getSome_lt {α : Type} (a : Array α) (j : Nat) (x : α)
    (h : a[j]? = some x) : j < a.size := by
  by_contra hge
  rw [Array.getElem?_ge a (Nat.le_of_not_lt hge)] at h
  cases h

/-- Arena `a2` extends arena `a`: every index populated in `a` is populated
in `a2` with the same kind and argument list (use lists may differ, since
`AddUse` mutates them in place). -/
def ArenaExtends (a a2 : Array MicroNode) : Prop :=
  ∀ (j : Nat) (x : MicroNode), a[j]? = some x →
    ∃ x2 : MicroNode, a2[j]? = some x2 ∧ x2.kind = x.kind ∧ x2.args = x.args

theorem arenaExtends_refl (a : Array MicroNode) : ArenaExtends a a :=
  fun _ x h => ⟨x, h, rfl, rfl⟩

theorem arenaExtends_trans {a b c : Array MicroNode}
    (h1 : ArenaExtends a b) (h2 : ArenaExtends b c) : ArenaExtends a c := by
  intro j x h
  obtain ⟨x2, hx2, hk2, ha2⟩ := h1 j x h
  obtain ⟨x3, hx3, hk3, ha3⟩ := h2 j x2 hx2
  exact ⟨x3, hx3, hk3.trans hk2, ha3.trans ha2⟩

theorem arenaExtends_push (a : Array MicroNode) (nd : MicroNode) :
    ArenaExtends a (a.push nd) := by
  intro j x h
  refine ⟨x, ?_, rfl, rfl⟩
  rw [Array.getElem?_push, if_neg (Nat.ne_of_lt (getSome_lt a j x h))]
  exact h

/-- A `modify` whose function preserves kind and arguments extends the arena. -/
theorem arenaExtends_modify (a : Array MicroNode) (i : Nat) (f : MicroNode → MicroNode)
    (hf : ∀ nd, (f nd).kind = nd.kind ∧ (f nd).args = nd.args) :
    ArenaExtends a (a.modify i f) := by
  intro j x h
  rw [Array.getElem?_modify]
  by_cases hij : i = j
  · rw [if_pos hij, h]
    exact ⟨f x, rfl, (hf x).1, (hf x).2⟩
  · rw [if_neg hij]
    exact ⟨x, h, rfl, rfl⟩

theorem arenaExtends_addUse (a : Array MicroNode) (t o : Nat) :
    ArenaExtends a (addUse a t o) :=
  arenaExtends_modify a t (fun nd => { nd with uses := nd.uses ++ [o] })
    (fun _ => ⟨rfl, rfl⟩)

/-- Inverting a lookup through a kind/args-preserving `modify`. -/
theorem modify_lookup_inv (a : Array MicroNode) (i : Nat) (f : MicroNode → MicroNode)
    (hf : ∀ nd, (f nd).kind = nd.kind ∧ (f nd).args = nd.args) (j : Nat) (x : MicroNode)
    (h : (a.modify i f)[j]? = some x) :
    ∃ x0, a[j]? = some x0 ∧ x0.kind = x.kind ∧ x0.args = x.args := by
  rw [Array.getElem?_modify] at h
  by_cases hij : i = j
  · rw [if_pos hij] at h
    cases hu : a[j]? with
    | none => rw [hu] at h; cases h
    | some y =>
        rw [hu] at h
        injection h with h2
        exact ⟨y, rfl, by rw [← h2, (hf y).1], by rw [← h2, (hf y).2]⟩
  · rw [if_neg hij] at h
    exact ⟨x, h, rfl, rfl⟩

theorem addUse_lookup_inv (a : Array MicroNode) (t o j : Nat) (x : MicroNode)
    (h : (addUse a t o)[j]? = some x) :
    ∃ x0, a[j]? = some x0 ∧ x0.kind = x.kind ∧ x0.args = x.args :=
  modify_lookup_inv a t (fun nd => { nd with uses := nd.uses ++ [o] })
    (fun _ => ⟨rfl, rfl⟩) j x h

/-- Inverting a lookup through a `push`, away from the pushed index. -/
theorem push_lookup_inv {α : Type} (a : Array α) (nd : α) (j : Nat) (x : α)
    (h : (a.push nd)[j]? = some x) (hj : j ≠ a.size) : a[j]? = some x := by
  rw [Array.getElem?_push, if_neg hj] at h
  exact h

/-- The arena contains no `MicroSetGPR` node (true throughout translation,
before the final register flush). -/
def NoSetGPR (a : Array MicroNode) : Prop :=
  ∀ (j : Nat) (x : MicroNode), a[j]? = some x → ∀ r : ArmReg, x.kind ≠ MicroKind.setGPR r

theorem noSetGPR_push (a : Array MicroNode) (nd : MicroNode) (h : NoSetGPR a)
    (hnd : ∀ r, nd.kind ≠ MicroKind.setGPR r) : NoSetGPR (a.push nd) := by
  intro j x hx r
  rw [Array.getElem?_push] at hx
  by_cases hj : j = a.size
  · rw [if_pos hj] at hx
    injection hx with hx2
    rw [← hx2]
    exact hnd r
  · rw [if_neg hj] at hx
    exact h j x hx r

theorem noSetGPR_modify (a : Array MicroNode) (i : Nat) (f : MicroNode → MicroNode)
    (hf : ∀ nd, (f nd).kind = nd.kind) (h : NoSetGPR a) : NoSetGPR (a.modify i f) := by
  intro j x hx r
  rw [Array.getElem?_modify] at hx
  by_cases hij : i = j
  · rw [if_pos hij] at hx
    cases hu : a[j]? with
    | none => rw [hu] at hx; cases hx
    | some y =>
        rw [hu] at hx
        injection hx with hx2
        rw [← hx2, hf y]
        exact h j y hu r
  · rw [if_neg hij] at hx
    exact h j x hx r

theorem noSetGPR_addUse (a : Array MicroNode) (t o : Nat) (h : NoSetGPR a) :
    NoSetGPR (addUse a t o) :=
  noSetGPR_modify a t (fun nd => { nd with uses := nd.uses ++ [o] }) (fun _ => rfl) h

/-- `GetOp` only looks at the node's kind. -/
theorem GetOp_eq_of_kind (x x2 : MicroNode) (h : x2.kind = x.kind) :
    x2.GetOp = x.GetOp := by
  rcases x with ⟨k, a1, w1, u1⟩
  rcases x2 with ⟨k2, a2, w2, u2⟩
  have h2 : k2 = k := h
  subst h2
  cases k2 <;> rfl

/-- Reading back an in-bounds `setD` write. -/
theorem getD_setD_same {α : Type} (a : Array α) (i : Nat) (x d : α)
    (h : i < a.size) : (a.setD i x).getD i d = x := by
  unfold Array.setD
  rw [dif_pos h]
  unfold Array.getD
  rw [dif_pos (by rw [Array.size_set]; exact h)]
  exact Array.get_set_eq a ⟨i, h⟩ x

/-- `setD` leaves other positions alone. -/
theorem getD_setD_ne {α : Type} (a : Array α) (i j : Nat) (x d : α)
    (h : i ≠ j) : (a.setD i x).getD j d = a.getD j d := by
  unfold Array.setD
  by_cases hi : i < a.size
  · rw [dif_pos hi]
    unfold Array.getD
    by_cases hj : j < a.size
    · rw [dif_pos (by rw [Array.size_set]; exact hj), dif_pos hj]
      exact Array.get_set_ne a ⟨i, hi⟩ x hj h
    · rw [dif_neg (by rw [Array.size_set]; exact hj), dif_neg hj]
  · rw [dif_neg hi]

/-- Every bound cached-register slot points at an arena node that is either
that very register's own `GetGPR` or a non-`GetGPR` value. -/
def SlotsOK (rv : Array (Option Nat)) (a : Array MicroNode) : Prop :=
  ∀ (i : Fin 15) (v : Nat), rv.getD i.val none = some v →
    ∃ nd : MicroNode, a[v]? = some nd ∧
      (nd.kind = MicroKind.getGPR i.castSucc ∨ nd.GetOp ≠ MicroOp.GetGPR)

theorem slotsOK_extends (rv : Array (Option Nat)) (a a2 : Array MicroNode)
    (hext : ArenaExtends a a2) (h : SlotsOK rv a) : SlotsOK rv a2 := by
  intro i v hv
  obtain ⟨nd, hnd, hp⟩ := h i v hv
  obtain ⟨nd2, hnd2, hk, _⟩ := hext v nd hnd
  refine ⟨nd2, hnd2, ?_⟩
  rcases hp with hp | hp
  · exact Or.inl (by rw [hk, hp])
  · exact Or.inr (by rw [GetOp_eq_of_kind nd nd2 hk]; exact hp)

/-- The translator invariant maintained by the translation loop: the
cached-register array keeps its 15 slots, every bound slot points at its own
register's `GetGPR` or a non-`GetGPR` value, and no `SetGPR` node exists in
the arena (those are only appended by the final flush). -/
def RegSlotsInv (st : ArmTranslator) : Prop :=
  st.reg_values.size = 15 ∧ SlotsOK st.reg_values st.ir.block.nodes ∧
    NoSetGPR st.ir.block.nodes

/-- The invariant only depends on the arena and the cached-register array. -/
theorem regSlotsInv_extendIR (st : ArmTranslator) (b : MicroBuilder)
    (hext : ArenaExtends st.ir.block.nodes b.block.nodes)
    (hns : NoSetGPR b.block.nodes) (hinv : RegSlotsInv st) :
    RegSlotsInv { st with ir := b } :=
  ⟨hinv.1, slotsOK_extends _ _ _ hext hinv.2.1, hns⟩

/-- The invariant holds for a fresh translator. -/
theorem regSlotsInv_mk (loc : LocationDescriptor) : RegSlotsInv (mkTranslator loc) := by
  refine ⟨rfl, ?_, ?_⟩
  · intro i v hv
    have hnone : (Array.mkArray 15 (none : Option Nat)).getD i.val none = none := by
      unfold Array.getD
      by_cases hi : i.val < (Array.mkArray 15 (none : Option Nat)).size
      · rw [dif_pos hi]
        exact Array.getElem_mkArray _ _ _
      · rw [dif_neg hi]
    have hv2 : (Array.mkArray 15 (none : Option Nat)).getD i.val none = some v := hv
    rw [hnone] at hv2
    cases hv2
  · intro j x hx r
    rw [Array.getElem?_ge _ (by exact Nat.zero_le j)] at hx
    cases hx

/-- `ConditionPassed` leaves the arena and the cached registers alone. -/
theorem conditionPassed_regInv (st : ArmTranslator) (c : Cond) (hinv : RegSlotsInv st) :
    RegSlotsInv (st.ConditionPassed c).2 := by
  unfold ArmTranslator.ConditionPassed
  split
  · exact hinv
  · exact hinv

/-- Reading the PC emits a fresh `ConstU32(arm_pc + 8)`. -/
theorem getReg_pc (st : ArmTranslator) :
    st.GetReg ArmReg.PC =
      ({ st with ir := (st.ir.ConstU32 st.PC).1 }, (st.ir.ConstU32 st.PC).2) := by
  unfold ArmTranslator.GetReg
  rw [if_pos rfl]

/-- Reading a cached register serves the bound slot. -/
theorem getReg_hit (st : ArmTranslator) (n : ArmReg) (v : Nat) (hpc : ¬ n = ArmReg.PC)
    (hs : st.reg_values.getD n.val none = some v) : st.GetReg n = (st, v) := by
  unfold ArmTranslator.GetReg
  rw [if_neg hpc, hs]

/-- First read of a register emits `GetGPR` and binds the slot to it. -/
theorem getReg_miss (st : ArmTranslator) (n : ArmReg) (hpc : ¬ n = ArmReg.PC)
    (hs : st.reg_values.getD n.val none = none) :
    st.GetReg n =
      ({ st with
           ir := (st.ir.GetGPR n).1,
           reg_values := st.reg_values.setD n.val (some (st.ir.GetGPR n).2) },
        (st.ir.GetGPR n).2) := by
  unfold ArmTranslator.GetReg
  rw [if_neg hpc, hs]

/-- A non-PC register has a slot index below 15. -/
theorem val_lt_of_ne_pc (n : ArmReg) (hpc : ¬ n = ArmReg.PC) : n.val < 15 := by
  have h16 := n.isLt
  have hne : n.val ≠ 15 := fun hv15 => hpc (Fin.ext (by rw [hv15]; rfl))
  omega

/-- `GetReg` preserves the translator invariant. -/
theorem getReg_regInv (st : ArmTranslator) (n : ArmReg) (hinv : RegSlotsInv st) :
    RegSlotsInv (st.GetReg n).1 := by
  by_cases hpc : n = ArmReg.PC
  · subst hpc
    rw [getReg_pc]
    exact regSlotsInv_extendIR st _ (arenaExtends_push _ _)
      (noSetGPR_push st.ir.block.nodes ⟨.constU32 st.PC, [], .noFlags, []⟩ hinv.2.2
        (fun r hr => MicroKind.noConfusion hr)) hinv
  · cases hs : st.reg_values.getD n.val none with
    | some v =>
        rw [getReg_hit st n v hpc hs]
        exact hinv
    | none =>
        rw [getReg_miss st n hpc hs]
        obtain ⟨hsz, hok, hns⟩ := hinv
        have hlt : n.val < 15 := val_lt_of_ne_pc n hpc
        refine ⟨?_, ?_, ?_⟩
        · show (st.reg_values.setD n.val (some (st.ir.GetGPR n).2)).size = 15
          rw [Array.size_setD]
          exact hsz
        · intro i v2 hv2
          have hv2' : (st.reg_values.setD n.val
              (some (st.ir.GetGPR n).2)).getD i.val none = some v2 := hv2
          by_cases hni : n.val = i.val
          · rw [← hni, getD_setD_same _ _ _ _ (by rw [hsz]; exact hlt)] at hv2'
            injection hv2' with hv2e
            refine ⟨⟨.getGPR n, [], .noFlags, []⟩, ?_, Or.inl ?_⟩
            · show (st.ir.block.nodes.push ⟨.getGPR n, [], .noFlags, []⟩)[v2]? =
                some ⟨.getGPR n, [], .noFlags, []⟩
              rw [← hv2e]
              show (st.ir.block.nodes.push
                ⟨.getGPR n, [], .noFlags, []⟩)[st.ir.block.nodes.size]? = _
              rw [Array.getElem?_push_eq]
            · have hcast : n = i.castSucc := Fin.ext (by rw [Fin.coe_castSucc]; exact hni)
              show MicroKind.getGPR n = MicroKind.getGPR i.castSucc
              rw [hcast]
          · rw [getD_setD_ne _ _ _ _ _ hni] at hv2'
            obtain ⟨nd, hnd, hp⟩ := hok i v2 hv2'
            obtain ⟨nd2, hnd2, hk, _⟩ :=
              arenaExtends_push st.ir.block.nodes ⟨.getGPR n, [], .noFlags, []⟩ v2 nd hnd
            refine ⟨nd2, hnd2, ?_⟩
            rcases hp with hp | hp
            · exact Or.inl (by rw [hk, hp])
            · exact Or.inr (by rw [GetOp_eq_of_kind nd nd2 hk]; exact hp)
        · exact noSetGPR_push _ _ hns (fun r hr => MicroKind.noConfusion hr)

/-- Inverting a successful `Add` emission: the returned index is the fresh
arena slot, it holds the `Add` instruction with the requested write-flags set
and the two argument indices, the arena is extended kind/args-preservingly,
and no `SetGPR` node is introduced. -/
theorem inst2_add_inv (b : MicroBuilder) (x y : Nat) (wf : MicroArmFlags)
    (b2 : MicroBuilder) (idx : Nat) (h : b.Inst2 .Add x y wf = some (b2, idx)) :
    idx = b.block.nodes.size ∧
    b2.block.nodes[idx]? = some ⟨.inst .Add, [x, y], wf, []⟩ ∧
    ArenaExtends b.block.nodes b2.block.nodes ∧
    (NoSetGPR b.block.nodes → NoSetGPR b2.block.nodes) := by
  simp only [MicroBuilder.Inst2, GetMicroOpInfo, Option.bind_eq_bind, Option.some_bind] at h
  split at h
  · rename_i hvt
    split at h
    · injection h with h1
      injection h1 with hb hidx
      have hxlt := valueType_lt _ _ _ hvt.1
      have hylt := valueType_lt _ _ _ hvt.2
      subst hb
      subst hidx
      refine ⟨rfl, ?_, ?_, ?_⟩
      · rw [Array.getElem?_modify, if_pos rfl,
          addUse_getElem?_ne _ _ _ _ (Nat.ne_of_lt hylt),
          addUse_getElem?_ne _ _ _ _ (Nat.ne_of_lt hxlt), Array.getElem?_push_eq]
        rfl
      · exact arenaExtends_trans (arenaExtends_trans
          (arenaExtends_trans (arenaExtends_push _ _) (arenaExtends_addUse _ _ _))
          (arenaExtends_addUse _ _ _))
          (arenaExtends_modify _ _ _ (fun _ => ⟨rfl, rfl⟩))
      · intro hns
        exact noSetGPR_modify _ _ _ (fun _ => rfl)
          (noSetGPR_addUse _ _ _ (noSetGPR_addUse _ _ _
            (noSetGPR_push _ _ hns (fun r hr => MicroKind.noConfusion hr))))
    · cases h
  · cases h

/-- `ALUWritePC` always trips the op-info lookup for `BranchWritePC`, which
has no table entry (`map::at` throws, modelled as `badInst`). -/
theorem ALUWritePC_error (st : ArmTranslator) (v : Nat) :
    st.ALUWritePC v = .error .badInst := rfl

/-- A successful `SetReg` to a value whose node is not a `GetGPR` preserves
the translator invariant. -/
theorem setReg_regInv (st : ArmTranslator) (d : ArmReg) (v : Nat) (st2 : ArmTranslator)
    (h : st.SetReg d v = .ok st2) (nd : MicroNode)
    (hnd : st.ir.block.nodes[v]? = some nd) (hop : nd.GetOp ≠ MicroOp.GetGPR)
    (hinv : RegSlotsInv st) : RegSlotsInv st2 := by
  unfold ArmTranslator.SetReg at h
  by_cases hd : d.val < 15
  · rw [if_pos hd] at h
    injection h with h2
    obtain ⟨hsz, hok, hns⟩ := hinv
    rw [← h2]
    refine ⟨?_, ?_, hns⟩
    · show (st.reg_values.setD d.val (some v)).size = 15
      rw [Array.size_setD]
      exact hsz
    · intro i v2 hv2
      have hv2' : (st.reg_values.setD d.val (some v)).getD i.val none = some v2 := hv2
      by_cases hdi : d.val = i.val
      · rw [← hdi, getD_setD_same _ _ _ _ (by rw [hsz]; exact hd)] at hv2'
        injection hv2' with hv2e
        exact ⟨nd, by rw [← hv2e]; exact hnd, Or.inr hop⟩
      · rw [getD_setD_ne _ _ _ _ _ hdi] at hv2'
        exact hok i v2 hv2'
  · rw [if_neg hd] at h
    cases h

/-- `B` preserves the translator invariant (it only touches the terminal,
the stop sentinel and the counters). -/
theorem visitB_regInv (st : ArmTranslator) (c : Cond) (imm24 : Nat)
    (hinv : RegSlotsInv st) : RegSlotsInv (st.visitB c imm24) := by
  unfold ArmTranslator.visitB
  rcases hcp : st.ConditionPassed c with ⟨pass, st1⟩
  have h1 : RegSlotsInv st1 := by
    have h0 := conditionPassed_regInv st c hinv
    rw [hcp] at h0
    exact h0
  cases pass
  · exact h1
  · exact h1

/-- The positive path of `ADD_imm`, with the condition check and the register
read resolved. -/
theorem visitADDimm_true (st : ArmTranslator) (c : Cond) (S : Bool) (n d : ArmReg)
    (rot imm8 : Nat) (st1 stg : ArmTranslator) (rn : Nat)
    (hcp : st.ConditionPassed c = (true, st1)) (hgr : st1.GetReg n = (stg, rn)) :
    st.visitADDimm c S n d rot imm8 =
      (match ({ stg with
            ir := (stg.ir.ConstU32 (ArmTranslator.ArmExpandImm imm8 rot)).1 }
          : ArmTranslator).ir.Inst2 .Add rn
          (stg.ir.ConstU32 (ArmTranslator.ArmExpandImm imm8 rot)).2
          (if S then MicroArmFlags.NZCV else MicroArmFlags.noFlags) with
       | none => Except.error TErr.badInst
       | some (b, result) =>
           if d = ArmReg.PC then
             ({ stg with ir := b } : ArmTranslator).ALUWritePC result
           else ({ stg with ir := b } : ArmTranslator).SetReg d result) := by
  unfold ArmTranslator.visitADDimm
  rw [hcp]
  dsimp only
  rw [hgr]

/-- `ADD_imm` preserves the translator invariant. -/
theorem visitADDimm_regInv (st : ArmTranslator) (c : Cond) (S : Bool) (n d : ArmReg)
    (rot imm8 : Nat) (st2 : ArmTranslator)
    (h : st.visitADDimm c S n d rot imm8 = .ok st2) (hinv : RegSlotsInv st) :
    RegSlotsInv st2 := by
  rcases hcp : st.ConditionPassed c with ⟨pass, st1⟩
  have h1 : RegSlotsInv st1 := by
    have h0 := conditionPassed_regInv st c hinv
    rw [hcp] at h0
    exact h0
  cases pass
  · unfold ArmTranslator.visitADDimm at h
    rw [hcp] at h
    have h' : Except.ok st1 = Except.ok st2 := h
    injection h' with h2
    rw [← h2]
    exact h1
  · rcases hgr : st1.GetReg n with ⟨stg, rn⟩
    have hg : RegSlotsInv stg := by
      have h0 := getReg_regInv st1 n h1
      rw [hgr] at h0
      exact h0
    rw [visitADDimm_true st c S n d rot imm8 st1 stg rn hcp hgr] at h
    split at h
    · cases h
    · rename_i b2 result hi2
      obtain ⟨hidx, hnode, hext2, hns2⟩ := inst2_add_inv _ _ _ _ _ _ hi2
      have hextC : ArenaExtends stg.ir.block.nodes
          ((stg.ir.ConstU32 (ArmTranslator.ArmExpandImm imm8 rot)).1).block.nodes :=
        arenaExtends_push stg.ir.block.nodes
          ⟨.constU32 (ArmTranslator.ArmExpandImm imm8 rot), [], .noFlags, []⟩
      have hnsC : NoSetGPR
          ((stg.ir.ConstU32 (ArmTranslator.ArmExpandImm imm8 rot)).1).block.nodes :=
        noSetGPR_push stg.ir.block.nodes
          ⟨.constU32 (ArmTranslator.ArmExpandImm imm8 rot), [], .noFlags, []⟩
          hg.2.2 (fun r hr => MicroKind.noConfusion hr)
      split at h
      · rw [ALUWritePC_error] at h
        cases h
      · refine setReg_regInv _ d result st2 h _ hnode
          (fun hc => MicroOp.noConfusion hc) ⟨hg.1, ?_, hns2 hnsC⟩
        exact slotsOK_extends _ _ _ (arenaExtends_trans hextC hext2) hg.2.1

/-- Every visitor preserves the translator invariant. -/
theorem visit_regInv (st : ArmTranslator) (di : DecodedInst) (st2 : ArmTranslator)
    (h : st.Visit di = .ok st2) (hinv : RegSlotsInv st) : RegSlotsInv st2 := by
  cases di with
  | B c imm24 =>
      have h' : Except.ok (st.visitB c imm24) = Except.ok st2 := h
      injection h' with h2
      rw [← h2]
      exact visitB_regInv st c imm24 hinv
  | ADD_imm c S n d rot imm8 => exact visitADDimm_regInv st c S n d rot imm8 st2 h hinv
  | MOV_reg c S dd imm5 m =>
      have h' : Except.ok st.FallbackToInterpreter = Except.ok st2 := h
      injection h' with h2
      rw [← h2]
      exact hinv
  | unhandled =>
      have h' : Except.ok st.FallbackToInterpreter = Except.ok st2 := h
      injection h' with h2
      rw [← h2]
      exact hinv

/-- Translating one instruction preserves the translator invariant. -/
theorem tsai_regInv (mem : Nat → Nat) (st st2 : ArmTranslator)
    (h : TranslateSingleArmInstruction mem st = .ok st2) (hinv : RegSlotsInv st) :
    RegSlotsInv st2 := by
  unfold TranslateSingleArmInstruction at h
  cases hdec : DecodeArm (mem (st.current.arm_pc &&& 0xFFFFFFFC)) with
  | none =>
      rw [hdec] at h
      injection h with h2
      rw [← h2]
      exact hinv
  | some di =>
      rw [hdec] at h
      dsimp only at h
      cases hv : st.Visit di with
      | error e =>
          rw [hv] at h
          cases h
      | ok stv =>
          rw [hv] at h
          have h' : Except.ok { stv with current :=
              { stv.current with
                  arm_pc := (stv.current.arm_pc + 4) % U32LIMIT } } = Except.ok st2 := h
          injection h' with h2
          rw [← h2]
          exact visit_regInv st di stv hv hinv

/-- The translation loop preserves the translator invariant. -/
theorem translateLoop_regInv (mem : Nat → Nat) :
    ∀ (fuel : Nat) (st st2 : ArmTranslator),
      translateLoop mem fuel st = .ok st2 → RegSlotsInv st → RegSlotsInv st2 := by
  intro fuel
  induction fuel with
  | zero => intro st st2 h _; cases h
  | succ fl ih =>
      intro st st2 h hinv
      rw [translateLoop_succ] at h
      cases ht : TranslateSingleArmInstruction mem
          { st with instructions_translated := st.instructions_translated + 1 } with
      | error e => rw [ht] at h; cases h
      | ok stt =>
          rw [ht] at h
          have hinvt : RegSlotsInv stt := tsai_regInv mem _ stt ht hinv
          simp only [Bind.bind, Except.bind] at h
          split at h
          · exact ih stt st2 h hinvt
          · injection h with h2
            rw [← h2]
            exact hinvt

/-- Inverting a successful builder `SetGPR`: the new node sits at the fresh
index, carries the register and the single argument, and everything else is
preserved up to use lists. -/
theorem setGPR_inv (b : MicroBuilder) (r : ArmReg) (v : Nat) (b2 : MicroBuilder) (i2 : Nat)
    (h : b.SetGPR r v = some (b2, i2)) :
    v < b.block.nodes.size ∧
    b2.block.nodes[b.block.nodes.size]? = some ⟨.setGPR r, [v], .noFlags, []⟩ ∧
    ArenaExtends b.block.nodes b2.block.nodes ∧
    (∀ (j : Nat) (x : MicroNode), b2.block.nodes[j]? = some x → j ≠ b.block.nodes.size →
       ∃ x0 : MicroNode, b.block.nodes[j]? = some x0 ∧
         x0.kind = x.kind ∧ x0.args = x.args) := by
  unfold MicroBuilder.SetGPR at h
  split at h
  · rename_i hvt
    have hvlt : v < b.block.nodes.size := valueType_lt _ _ _ hvt
    injection h with h1
    injection h1 with hb hi2
    subst hb
    refine ⟨hvlt, ?_, ?_, ?_⟩
    · show (addUse (b.block.nodes.push ⟨.setGPR r, [v], .noFlags, []⟩) v
          b.block.nodes.size)[b.block.nodes.size]? =
        some ⟨.setGPR r, [v], .noFlags, []⟩
      rw [addUse_getElem?_ne _ _ _ _ (Nat.ne_of_lt hvlt), Array.getElem?_push_eq]
    · exact arenaExtends_trans (arenaExtends_push _ _) (arenaExtends_addUse _ _ _)
    · intro j x hx hj
      obtain ⟨x1, hx1, hk1, ha1⟩ := addUse_lookup_inv _ _ _ _ _ hx
      exact ⟨x1, push_lookup_inv _ _ _ _ hx1 hj, hk1, ha1⟩
  · cases h

/-- What one flush step does: the cached registers are untouched; if slot `i`
is bound to a non-`GetGPR` value a single `SetGPR(i, value)` node is
appended, and otherwise the arena is unchanged. -/
theorem flushStep_spec (st sA : ArmTranslator) (i : Fin 15)
    (h : flushStep st i = some sA) :
    sA.reg_values = st.reg_values ∧
    ArenaExtends st.ir.block.nodes sA.ir.block.nodes ∧
    (∀ (j : Nat) (x : MicroNode), sA.ir.block.nodes[j]? = some x →
       (∃ x0 : MicroNode, st.ir.block.nodes[j]? = some x0 ∧
          x0.kind = x.kind ∧ x0.args = x.args) ∨
       (∃ (v : Nat) (nd0 : MicroNode), st.reg_values.getD i.val none = some v ∧
          st.ir.block.nodes[v]? = some nd0 ∧ nd0.GetOp ≠ MicroOp.GetGPR ∧
          x.kind = MicroKind.setGPR i.castSucc ∧ x.args = [v])) ∧
    (∀ (v : Nat) (nd0 : MicroNode), st.reg_values.getD i.val none = some v →
       st.ir.block.nodes[v]? = some nd0 → nd0.GetOp ≠ MicroOp.GetGPR →
       ∃ (j : Nat) (x : MicroNode), sA.ir.block.nodes[j]? = some x ∧
         x.kind = MicroKind.setGPR i.castSucc ∧ x.args = [v]) := by
  unfold flushStep at h
  cases hslot : st.reg_values.getD i.val none with
  | none =>
      rw [hslot] at h
      injection h with h2
      subst h2
      refine ⟨rfl, arenaExtends_refl _, ?_, ?_⟩
      · intro j x hx
        exact Or.inl ⟨x, hx, rfl, rfl⟩
      · intro v nd0 hv
        cases hv
  | some v =>
      rw [hslot] at h
      dsimp only at h
      cases hvnd : st.ir.block.nodes[v]? with
      | none =>
          rw [hvnd] at h
          cases h
      | some nd =>
          rw [hvnd] at h
          dsimp only at h
          by_cases hop : nd.GetOp ≠ MicroOp.GetGPR
          · rw [if_pos hop] at h
            cases hsg : st.ir.SetGPR i.castSucc v with
            | none => rw [hsg] at h; cases h
            | some p =>
                rcases p with ⟨b2, i2⟩
                rw [hsg] at h
                injection h with h2
                subst h2
                obtain ⟨hvlt, hnew, hext, hold⟩ := setGPR_inv _ _ _ _ _ hsg
                refine ⟨rfl, hext, ?_, ?_⟩
                · intro j x hx
                  by_cases hj : j = st.ir.block.nodes.size
                  · subst hj
                    have hx' : b2.block.nodes[st.ir.block.nodes.size]? = some x := hx
                    rw [hnew] at hx'
                    injection hx' with hx2
                    subst hx2
                    exact Or.inr ⟨v, nd, rfl, hvnd, hop, rfl, rfl⟩
                  · exact Or.inl (hold j x hx hj)
                · intro v2 nd2 hv2 hnd2 hop2
                  injection hv2 with hv2e
                  subst hv2e
                  exact ⟨st.ir.block.nodes.size, ⟨.setGPR i.castSucc, [v], .noFlags, []⟩,
                    hnew, rfl, rfl⟩
          · rw [if_neg hop] at h
            injection h with h2
            subst h2
            refine ⟨rfl, arenaExtends_refl _, ?_, ?_⟩
            · intro j x hx
              exact Or.inl ⟨x, hx, rfl, rfl⟩
            · intro v2 nd2 hv2 hnd2 hop2
              injection hv2 with hv2e
              subst hv2e
              rw [hvnd] at hnd2
              injection hnd2 with hnd2e
              subst hnd2e
              exact absurd hop2 hop

/-- What the whole register write-back fold does, provided every bound slot
points into the arena: the cached registers are untouched, old nodes keep
their kind and arguments, every new node is a `SetGPR(i, v)` for some
processed slot `i` bound to a non-`GetGPR` value `v`, and every such slot
gets its `SetGPR` node. -/
theorem flushFold_spec :
    ∀ (l : List (Fin 15)) (st st1 : ArmTranslator),
      List.foldlM flushStep st l = some st1 →
      (∀ (i : Fin 15) (v : Nat), st.reg_values.getD i.val none = some v →
         ∃ x0 : MicroNode, st.ir.block.nodes[v]? = some x0) →
      st1.reg_values = st.reg_values ∧
      ArenaExtends st.ir.block.nodes st1.ir.block.nodes ∧
      (∀ (j : Nat) (x : MicroNode), st1.ir.block.nodes[j]? = some x →
         (∃ x0 : MicroNode, st.ir.block.nodes[j]? = some x0 ∧
            x0.kind = x.kind ∧ x0.args = x.args) ∨
         (∃ i : Fin 15, i ∈ l ∧ ∃ (v : Nat) (nd0 : MicroNode),
            st.reg_values.getD i.val none = some v ∧
            st.ir.block.nodes[v]? = some nd0 ∧ nd0.GetOp ≠ MicroOp.GetGPR ∧
            x.kind = MicroKind.setGPR i.castSucc ∧ x.args = [v])) ∧
      (∀ i : Fin 15, i ∈ l → ∀ (v : Nat) (nd0 : MicroNode),
         st.reg_values.getD i.val none = some v →
         st.ir.block.nodes[v]? = some nd0 → nd0.GetOp ≠ MicroOp.GetGPR →
         ∃ (j : Nat) (x : MicroNode), st1.ir.block.nodes[j]? = some x ∧
           x.kind = MicroKind.setGPR i.castSucc ∧ x.args = [v]) := by
  intro l
  induction l with
  | nil =>
      intro st st1 h _
      injection h with h2
      subst h2
      refine ⟨rfl, arenaExtends_refl _, ?_, ?_⟩
      · intro j x hx
        exact Or.inl ⟨x, hx, rfl, rfl⟩
      · intro i hi
        cases hi
  | cons i0 rest ih =>
      intro st st1 h hvalid
      rw [show List.foldlM flushStep st (i0 :: rest) =
            (flushStep st i0) >>= fun s => List.foldlM flushStep s rest from rfl] at h
      cases hstep : flushStep st i0 with
      | none => rw [hstep] at h; cases h
      | some sA =>
          rw [hstep] at h
          simp only [Option.bind_eq_bind, Option.some_bind] at h
          obtain ⟨hrvA, hextA, holdA, hemitA⟩ := flushStep_spec st sA i0 hstep
          have hvalidA : ∀ (i : Fin 15) (v : Nat),
              sA.reg_values.getD i.val none = some v →
              ∃ x0 : MicroNode, sA.ir.block.nodes[v]? = some x0 := by
            intro i v hv
            rw [hrvA] at hv
            obtain ⟨x0, hx0⟩ := hvalid i v hv
            obtain ⟨x1, hx1, _, _⟩ := hextA v x0 hx0
            exact ⟨x1, hx1⟩
          obtain ⟨hrvB, hextB, holdB, hemitB⟩ := ih sA st1 h hvalidA
          refine ⟨hrvB.trans hrvA, arenaExtends_trans hextA hextB, ?_, ?_⟩
          · intro j x hx
            rcases holdB j x hx with ⟨x1, hx1, hk1, ha1⟩ |
              ⟨i, hi, v, nd0, hv, hnd0, hop, hk, ha⟩
            · rcases holdA j x1 hx1 with ⟨x0, hx0, hk0, ha0⟩ |
                ⟨v, nd0, hv, hnd0, hop, hk, ha⟩
              · exact Or.inl ⟨x0, hx0, hk0.trans hk1, ha0.trans ha1⟩
              · refine Or.inr ⟨i0, List.mem_cons_self _ _, v, nd0, hv, hnd0, hop, ?_, ?_⟩
                · rw [← hk1]; exact hk
                · rw [← ha1]; exact ha
            · -- emitted during the rest of the fold: transport its slot facts
              -- from `sA` back to `st`
              rw [hrvA] at hv
              obtain ⟨x0, hx0⟩ := hvalid i v hv
              obtain ⟨x1, hx1, hk1, _⟩ := hextA v x0 hx0
              rw [hx1] at hnd0
              injection hnd0 with hnd0e
              refine Or.inr ⟨i, List.mem_cons_of_mem i0 hi, v, x0, hv, hx0, ?_, hk, ha⟩
              rw [← GetOp_eq_of_kind x0 nd0 (by rw [← hnd0e]; exact hk1)]
              exact hop
          · intro i hi v nd0 hv hnd0 hop
            rcases List.mem_cons.mp hi with heq | hi2
            · subst heq
              obtain ⟨j, x, hx, hk, ha⟩ := hemitA v nd0 hv hnd0 hop
              obtain ⟨x2, hx2, hk2, ha2⟩ := hextB j x hx
              exact ⟨j, x2, hx2, by rw [hk2]; exact hk, by rw [ha2]; exact ha⟩
            · obtain ⟨nd1, hnd1, hk1, _⟩ := hextA v nd0 hnd0
              have hopA : nd1.GetOp ≠ MicroOp.GetGPR := by
                rw [GetOp_eq_of_kind nd0 nd1 hk1]
                exact hop
              exact hemitB i hi2 v nd1 (by rw [hrvA]; exact hv) hnd1 hopA

/-- A node whose kind is `getGPR` has op `GetGPR`. -/
theorem GetOp_of_kind_getGPR (nd : MicroNode) (r : ArmReg)
    (h : nd.kind = MicroKind.getGPR r) : nd.GetOp = MicroOp.GetGPR := by
  rcases nd with ⟨k, a, w, u⟩
  have h2 : k = MicroKind.getGPR r := h
  subst h2
  rfl

/-- `castSucc` into `Fin 16` is injective. -/
theorem castSucc_inj15 (a b : Fin 15) (h : a.castSucc = b.castSucc) : a = b :=
  Fin.ext (by rw [← Fin.coe_castSucc a, ← Fin.coe_castSucc b, h])

/-- The three claims about the flush, for an arbitrary pre-flush state
satisfying the translator invariant: `SetGPR(i, v)` nodes appear afterwards
exactly for the slots bound to a non-`GetGPR` value `v`, each such node's
argument is the bound value, and a bound `GetGPR`-valued slot always holds
its own register's `GetGPR`. -/
theorem flush_claims (sPre stf : ArmTranslator) (hf : sPre.flushRegs = some stf)
    (hinv : RegSlotsInv sPre) (i : Fin 15) :
    ((∃ (j : Nat) (nd : MicroNode), stf.ir.block.nodes[j]? = some nd ∧
        nd.kind = MicroKind.setGPR i.castSucc) ↔
      (∃ (v : Nat) (nd : MicroNode), sPre.reg_values.getD i.val none = some v ∧
        stf.ir.block.nodes[v]? = some nd ∧ nd.GetOp ≠ MicroOp.GetGPR))
  ∧ (∀ (j : Nat) (nd : MicroNode), stf.ir.block.nodes[j]? = some nd →
       nd.kind = MicroKind.setGPR i.castSucc →
       ∃ v : Nat, sPre.reg_values.getD i.val none = some v ∧ nd.args = [v])
  ∧ (∀ (v : Nat) (nd : MicroNode) (r : ArmReg),
       sPre.reg_values.getD i.val none = some v →
       stf.ir.block.nodes[v]? = some nd → nd.kind = MicroKind.getGPR r →
       r = i.castSucc) := by
  unfold ArmTranslator.flushRegs at hf
  have hvalid : ∀ (i2 : Fin 15) (v : Nat),
      sPre.reg_values.getD i2.val none = some v →
      ∃ x0 : MicroNode, sPre.ir.block.nodes[v]? = some x0 := by
    intro i2 v hv
    obtain ⟨nd0, hnd0, _⟩ := hinv.2.1 i2 v hv
    exact ⟨nd0, hnd0⟩
  obtain ⟨hrv, hext, hold, hemit⟩ := flushFold_spec (List.finRange 15) sPre stf hf hvalid
  refine ⟨⟨?_, ?_⟩, ?_, ?_⟩
  · rintro ⟨j, nd, hj, hk⟩
    rcases hold j nd hj with ⟨x0, hx0, hk0, _⟩ | ⟨i2, _, v, nd0, hv, hnd0, hop, hk2, _⟩
    · exact absurd (hk0.trans hk) (hinv.2.2 j x0 hx0 i.castSucc)
    · have hii : i2 = i := castSucc_inj15 i2 i (by
        have := (hk2.symm.trans hk)
        injection this)
      subst hii
      obtain ⟨nd2, hnd2, hknd2, _⟩ := hext v nd0 hnd0
      refine ⟨v, nd2, hv, hnd2, ?_⟩
      rw [GetOp_eq_of_kind nd0 nd2 hknd2]
      exact hop
  · rintro ⟨v, nd, hv, hvnd, hop⟩
    obtain ⟨nd0, hnd0, _⟩ := hinv.2.1 i v hv
    obtain ⟨nd2, hnd2, hknd2, _⟩ := hext v nd0 hnd0
    rw [hvnd] at hnd2
    injection hnd2 with hnd2e
    have hop0 : nd0.GetOp ≠ MicroOp.GetGPR := by
      rw [← GetOp_eq_of_kind nd0 nd (by rw [hnd2e]; exact hknd2)]
      exact hop
    obtain ⟨j, x, hx, hk, _⟩ := hemit i (List.mem_finRange i) v nd0 hv hnd0 hop0
    exact ⟨j, x, hx, hk⟩
  · intro j nd hj hk
    rcases hold j nd hj with ⟨x0, hx0, hk0, _⟩ | ⟨i2, _, v, nd0, hv, _, _, hk2, ha2⟩
    · exact absurd (hk0.trans hk) (hinv.2.2 j x0 hx0 i.castSucc)
    · have hii : i2 = i := castSucc_inj15 i2 i (by
        have := (hk2.symm.trans hk)
        injection this)
      subst hii
      exact ⟨v, hv, ha2⟩
  · intro v nd r hv hvnd hk
    obtain ⟨nd0, hnd0, hp⟩ := hinv.2.1 i v hv
    obtain ⟨nd2, hnd2, hknd2, _⟩ := hext v nd0 hnd0
    rw [hvnd] at hnd2
    injection hnd2 with hnd2e
    have hk0 : nd0.kind = MicroKind.getGPR r := by
      rw [hnd2e] at hk
      rw [← hknd2]
      exact hk
    rcases hp with hp | hp
    · have := hp.symm.trans hk0
      injection this with hri
      exact hri.symm
    · exact absurd (GetOp_of_kind_getGPR nd0 r hk0) hp

/-- C4: at the end of every successful `Translate`, for every cached-register
slot `i` in 0..14: a `SetGPR(i, _)` node is in the block exactly when the
slot is bound to a value whose op is not `GetGPR` (the code's flush
condition), the emitted node's argument is precisely the bound value, and a
slot bound to a `GetGPR` node always holds its own register's initial
`GetGPR(i)` — so "not itself the initial `GetGPR(i)`" coincides with the
flush condition, and the claim's `GetGPR(j), j ≠ i` case never arises. -/
theorem claim_C4_register_flush (mem : Nat → Nat) (loc : LocationDescriptor)
    (blk : MicroBlock) (stL stF : ArmTranslator)
    (h : TranslateFull mem loc = .ok (blk, stL, stF)) (i : Fin 15) :
    ((∃ (j : Nat) (nd : MicroNode), blk.nodes[j]? = some nd ∧
        nd.kind = MicroKind.setGPR i.castSucc) ↔
      (∃ (v : Nat) (nd : MicroNode), stL.reg_values.getD i.val none = some v ∧
        blk.nodes[v]? = some nd ∧ nd.GetOp ≠ MicroOp.GetGPR))
  ∧ (∀ (j : Nat) (nd : MicroNode), blk.nodes[j]? = some nd →
       nd.kind = MicroKind.setGPR i.castSucc →
       ∃ v : Nat, stL.reg_values.getD i.val none = some v ∧ nd.args = [v])
  ∧ (∀ (v : Nat) (nd : MicroNode) (r : ArmReg),
       stL.reg_values.getD i.val none = some v → blk.nodes[v]? = some nd →
       nd.kind = MicroKind.getGPR r → r = i.castSucc) := by
  unfold TranslateFull at h
  cases hL : translateLoop mem PAGE_FUEL (mkTranslator loc) with
  | error e => rw [hL] at h; cases h
  | ok sL =>
      rw [hL] at h
      simp only [Bind.bind, Except.bind] at h
      have hinvL : RegSlotsInv sL :=
        translateLoop_regInv mem PAGE_FUEL (mkTranslator loc) sL hL (regSlotsInv_mk loc)
      by_cases hstop : sL.stop_compilation = true
      · rw [if_pos hstop] at h
        cases hfr : sL.flushRegs with
        | none => rw [hfr] at h; cases h
        | some stf =>
            rw [hfr] at h
            dsimp only at h
            injection h with h1
            injection h1 with hblk h23
            injection h23 with hstL hstF
            subst hstL
            rw [← hblk]
            exact flush_claims sL stf hfr hinvL i
      · rw [if_neg hstop] at h
        cases hfr : ({ sL with
            ir := sL.ir.SetTerm (.LinkBlock sL.current) } : ArmTranslator).flushRegs with
        | none => rw [hfr] at h; cases h
        | some stf =>
            rw [hfr] at h
            dsimp only at h
            injection h with h1
            injection h1 with hblk h23
            injection h23 with hstL hstF
            subst hstL
            rw [← hblk]
            exact flush_claims _ stf hfr hinvL i

/-- C4 witness: the page-boundary `add r1, r2, #3` translation: slot 1 is
bound to the `Add` result, so a `SetGPR(R1, Add)` is appended; slot 2 holds
its own initial `GetGPR(R2)` and gets no write-back. -/
theorem claim_C4_witness :
    TranslateFull pageMem pageLoc = .ok (pageBlk, pageStL, pageStF) ∧
    (((∃ (j : Nat) (nd : MicroNode), pageBlk.nodes[j]? = some nd ∧
          nd.kind = MicroKind.setGPR (1 : Fin 15).castSucc) ↔
        (∃ (v : Nat) (nd : MicroNode),
          pageStL.reg_values.getD (1 : Fin 15).val none = some v ∧
          pageBlk.nodes[v]? = some nd ∧ nd.GetOp ≠ MicroOp.GetGPR))
      ∧ (∀ (j : Nat) (nd : MicroNode), pageBlk.nodes[j]? = some nd →
           nd.kind = MicroKind.setGPR (1 : Fin 15).castSucc →
           ∃ v : Nat, pageStL.reg_values.getD (1 : Fin 15).val none = some v ∧
             nd.args = [v])
      ∧ (∀ (v : Nat) (nd : MicroNode) (r : ArmReg),
           pageStL.reg_values.getD (1 : Fin 15).val none = some v →
           pageBlk.nodes[v]? = some nd → nd.kind = MicroKind.getGPR r →
           r = (1 : Fin 15).castSucc)) :=
  ⟨by decide,
   claim_C4_register_flush pageMem pageLoc pageBlk pageStL pageStF (by decide) 1⟩

/-! ## `MicroValue::ReplaceUsesWith` (claim C6) -/

/-- The argument list of the node at `j` (empty if out of bounds). -/
def argsOf (a : Array MicroNode) (j : Nat) : List Nat :=
  ((a[j]?).map MicroNode.args).getD []

/-- The use list of the node at `j` (empty if out of bounds). -/
def usesOf (a : Array MicroNode) (j : Nat) : List Nat :=
  ((a[j]?).map MicroNode.uses).getD []

/-- Use-list consistency of an arena: argument and use indices are in
bounds, and each value's use list records one entry per argument referencing
it ("There can be multiple uses from the same owner"). -/
def UseConsistent (a : Array MicroNode) : Prop :=
  (∀ j : Fin a.size, ∀ t ∈ (a.get j).args, t < a.size) ∧
  (∀ j : Fin a.size, ∀ o ∈ (a.get j).uses, o < a.size) ∧
  (∀ t o : Fin a.size, ((a.get t).uses.count o.val = ((a.get o).args.count t.val)))

instance (a : Array MicroNode) : Decidable (UseConsistent a) := by
  unfold UseConsistent
  infer_instance

/-- `MicroValue::RemoveUse`: erase exactly one use entry of `owner` from the
value at `target`; the assert that such an entry exists is modelled as
`none`. -/
def removeUse (a : Array MicroNode) (target owner : Nat) : Option (Array MicroNode) :=
  match a[target]? with
  | none => none
  | some nd =>
      if owner ∈ nd.uses then
        some (a.modify target fun nd2 => { nd2 with uses := nd2.uses.erase owner })
      else none

/-- One argument slot of `ReplaceUseOfXWithY` (`MicroInst` loop body, and the
whole `MicroSetGPR` overload when the node has a single argument): if slot
`p` of `owner` holds `x`, rewrite it to `y`, remove the corresponding use of
`x` and register the new use of `y`, reporting whether the slot matched. -/
def replaceUseStep (a : Array MicroNode) (owner p x y : Nat) :
    Option (Array MicroNode × Bool) :=
  match a[owner]? with
  | none => none
  | some nd =>
    match nd.args[p]? with
    | none => none
    | some t =>
      if t = x then do
        let a1 := a.modify owner fun nd2 => { nd2 with args := nd2.args.set p y }
        let a2 ← removeUse a1 x owner
        some (addUse a2 y owner, true)
      else some (a, false)

/-- `ReplaceUseOfXWithY` dispatched on the node's shape: the `MicroValue`
base-class version is a fatal assert (`constU32`, `getGPR`); the
`MicroSetGPR` and `MicroInst` versions walk the argument slots rewriting
every occurrence of `x` to `y`, and assert that at least one slot matched
(`ASSERT_MSG(has_use, ...)`). -/
def replaceUseOfXWithY (a : Array MicroNode) (owner x y : Nat) :
    Option (Array MicroNode) :=
  match a[owner]? with
  | none => none
  | some nd =>
    match nd.kind with
    | .constU32 _ => none
    | .getGPR _ => none
    | _ => do
      let r ← (List.range nd.args.length).foldlM
        (fun (acc : Array MicroNode × Bool) p => do
          let s ← replaceUseStep acc.1 owner p x y
          some (s.1, acc.2 || s.2)) (a, false)
      if r.2 then some r.1 else none

/-- The loop of `MicroValue::ReplaceUsesWith`: repeatedly dispatch
`ReplaceUseOfXWithY` to the owner of the first remaining use of `x` (each
dispatch erases that owner's use entries from `x`'s list), with fuel. -/
def replaceUsesLoop (x y : Nat) : Nat → Array MicroNode → Option (Array MicroNode)
  | 0, a => some a
  | fuel + 1, a =>
      match a[x]? with
      | none => none
      | some nd =>
        match nd.uses with
        | [] => some a
        | owner :: _ => do
            let a2 ← replaceUseOfXWithY a owner x y
            replaceUsesLoop x y fuel a2

/-- `MicroValue::ReplaceUsesWith(x, y)`: rewrite every user of `x` to use
`y`, then `ASSERT(uses.empty())`. -/
def ReplaceUsesWith (a : Array MicroNode) (x y : Nat) : Option (Array MicroNode) :=
  match a[x]? with
  | none => none
  | some nd =>
      match replaceUsesLoop x y nd.uses.length a with
      | none => none
      | some a2 =>
          match a2[x]? with
          | none => none
          | some nd2 => if nd2.uses = [] then some a2 else none

/-- The kind of the node at `j`. -/
def kindOf (a : Array MicroNode) (j : Nat) : Option MicroKind :=
  (a[j]?).map MicroNode.kind

theorem argsOf_eq (a : Array MicroNode) (j : Nat) (nd : MicroNode)
    (h : a[j]? = some nd) : argsOf a j = nd.args := by
  unfold argsOf
  rw [h]
  rfl

theorem usesOf_eq (a : Array MicroNode) (j : Nat) (nd : MicroNode)
    (h : a[j]? = some nd) : usesOf a j = nd.uses := by
  unfold usesOf
  rw [h]
  rfl

theorem argsOf_oob (a : Array MicroNode) (j : Nat) (h : a[j]? = none) :
    argsOf a j = [] := by
  unfold argsOf
  rw [h]
  rfl

theorem usesOf_oob (a : Array MicroNode) (j : Nat) (h : a[j]? = none) :
    usesOf a j = [] := by
  unfold usesOf
  rw [h]
  rfl

theorem exists_node_of_argsOf (a : Array MicroNode) (j : Nat) (h : argsOf a j ≠ []) :
    ∃ nd, a[j]? = some nd := by
  cases hj : a[j]? with
  | none => exact absurd (argsOf_oob a j hj) h
  | some nd => exact ⟨nd, rfl⟩

/-- Modifying a node's argument list: effect on `argsOf`. -/
theorem argsOf_modifyArgs (a : Array MicroNode) (owner : Nat) (f : List Nat → List Nat)
    (hf : f [] = []) (o : Nat) :
    argsOf (a.modify owner fun nd2 => { nd2 with args := f nd2.args }) o =
      if owner = o then f (argsOf a o) else argsOf a o := by
  unfold argsOf
  rw [Array.getElem?_modify]
  by_cases h : owner = o
  · rw [if_pos h, if_pos h]
    cases ha : a[o]? with
    | none => exact hf.symm
    | some nd => rfl
  · rw [if_neg h, if_neg h]

/-- Modifying a node's argument list leaves every use list alone. -/
theorem usesOf_modifyArgs (a : Array MicroNode) (owner : Nat) (f : List Nat → List Nat)
    (o : Nat) :
    usesOf (a.modify owner fun nd2 => { nd2 with args := f nd2.args }) o =
      usesOf a o := by
  unfold usesOf
  rw [Array.getElem?_modify]
  by_cases h : owner = o
  · rw [if_pos h]
    cases ha : a[o]? with
    | none => rfl
    | some nd => rfl
  · rw [if_neg h]

/-- Modifying a node's argument list leaves every kind alone. -/
theorem kindOf_modifyArgs (a : Array MicroNode) (owner : Nat) (f : List Nat → List Nat)
    (o : Nat) :
    kindOf (a.modify owner fun nd2 => { nd2 with args := f nd2.args }) o =
      kindOf a o := by
  unfold kindOf
  rw [Array.getElem?_modify]
  by_cases h : owner = o
  · rw [if_pos h]
    cases ha : a[o]? with
    | none => rfl
    | some nd => rfl
  · rw [if_neg h]

/-- Modifying a node's use list: effect on `usesOf`. -/
theorem usesOf_modifyUses (a : Array MicroNode) (target : Nat) (f : List Nat → List Nat)
    (hf : f [] = []) (o : Nat) :
    usesOf (a.modify target fun nd2 => { nd2 with uses := f nd2.uses }) o =
      if target = o then f (usesOf a o) else usesOf a o := by
  unfold usesOf
  rw [Array.getElem?_modify]
  by_cases h : target = o
  · rw [if_pos h, if_pos h]
    cases ha : a[o]? with
    | none => exact hf.symm
    | some nd => rfl
  · rw [if_neg h, if_neg h]

/-- Modifying a node's use list leaves every argument list alone. -/
theorem argsOf_modifyUses (a : Array MicroNode) (target : Nat) (f : List Nat → List Nat)
    (o : Nat) :
    argsOf (a.modify target fun nd2 => { nd2 with uses := f nd2.uses }) o =
      argsOf a o := by
  unfold argsOf
  rw [Array.getElem?_modify]
  by_cases h : target = o
  · rw [if_pos h]
    cases ha : a[o]? with
    | none => rfl
    | some nd => rfl
  · rw [if_neg h]

/-- Modifying a node's use list leaves every kind alone. -/
theorem kindOf_modifyUses (a : Array MicroNode) (target : Nat) (f : List Nat → List Nat)
    (o : Nat) :
    kindOf (a.modify target fun nd2 => { nd2 with uses := f nd2.uses }) o =
      kindOf a o := by
  unfold kindOf
  rw [Array.getElem?_modify]
  by_cases h : target = o
  · rw [if_pos h]
    cases ha : a[o]? with
    | none => rfl
    | some nd => rfl
  · rw [if_neg h]

/-- `AddUse`: effect on the target's use list. -/
theorem usesOf_addUse_self (a : Array MicroNode) (t o : Nat) (nd : MicroNode)
    (ht : a[t]? = some nd) : usesOf (addUse a t o) t = usesOf a t ++ [o] := by
  unfold addUse usesOf
  rw [Array.getElem?_modify, if_pos rfl, ht]
  rfl

theorem usesOf_addUse_ne (a : Array MicroNode) (t o j : Nat) (h : t ≠ j) :
    usesOf (addUse a t o) j = usesOf a j := by
  unfold addUse usesOf
  rw [Array.getElem?_modify, if_neg h]

theorem argsOf_addUse (a : Array MicroNode) (t o j : Nat) :
    argsOf (addUse a t o) j = argsOf a j := by
  unfold addUse argsOf
  rw [Array.getElem?_modify]
  by_cases h : t = j
  · rw [if_pos h]
    cases ha : a[j]? with
    | none => rfl
    | some nd => rfl
  · rw [if_neg h]

theorem kindOf_addUse (a : Array MicroNode) (t o j : Nat) :
    kindOf (addUse a t o) j = kindOf a j := by
  unfold addUse kindOf
  rw [Array.getElem?_modify]
  by_cases h : t = j
  · rw [if_pos h]
    cases ha : a[j]? with
    | none => rfl
    | some nd => rfl
  · rw [if_neg h]

/-- Counting after a positional overwrite. -/
theorem count_set_eq (l : List Nat) (p v w : Nat) (h : l[p]? = some v) (x : Nat) :
    (l.set p w).count x + (if v = x then 1 else 0) =
      l.count x + (if w = x then 1 else 0) := by
  induction l generalizing p with
  | nil => cases h
  | cons a tl ih =>
      cases p with
      | zero =>
          rw [List.getElem?_cons_zero] at h
          injection h with h2
          subst h2
          simp only [List.set, List.count_cons]
          have hbe : ∀ y z : Nat, (if (y == z) = true then 1 else 0) =
              (if y = z then 1 else 0) := by
            intro y z
            by_cases hyz : y = z <;> simp [hyz]
          rw [hbe, hbe]
          omega
      | succ p2 =>
          rw [List.getElem?_cons_succ] at h
          simp only [List.set, List.count_cons]
          have := ih p2 h
          omega

/-- Counting after erasing one present element. -/
theorem count_erase_eq (l : List Nat) (b : Nat) (hb : b ∈ l) (x : Nat) :
    (l.erase b).count x + (if b = x then 1 else 0) = l.count x := by
  rw [List.count_erase]
  by_cases hbx : b = x
  · have hpos : 0 < l.count x := by
      rw [← hbx]
      exact List.count_pos_iff.mpr hb
    rw [if_pos (by rw [hbx]; exact beq_self_eq_true x), if_pos hbx]
    omega
  · rw [if_neg (by simpa using hbx), if_neg hbx]
    omega

theorem argsOf_get (a : Array MicroNode) (j : Fin a.size) :
    argsOf a j.val = (a.get j).args := by
  unfold argsOf
  rw [Array.getElem?_lt a j.isLt]
  rfl

theorem usesOf_get (a : Array MicroNode) (j : Fin a.size) :
    usesOf a j.val = (a.get j).uses := by
  unfold usesOf
  rw [Array.getElem?_lt a j.isLt]
  rfl

/-- Use-list consistency, phrased over raw indices (out-of-bounds indices
carry empty lists). -/
def UseConsistentQ (a : Array MicroNode) : Prop :=
  (∀ j t : Nat, t ∈ argsOf a j → t < a.size) ∧
  (∀ j o : Nat, o ∈ usesOf a j → o < a.size) ∧
  (∀ t o : Nat, (usesOf a t).count o = (argsOf a o).count t)

theorem useConsistentQ_iff (a : Array MicroNode) : UseConsistent a ↔ UseConsistentQ a := by
  constructor
  · rintro ⟨h1, h2, h3⟩
    have hargs : ∀ j t : Nat, t ∈ argsOf a j → t < a.size := by
      intro j t ht
      cases hj : a[j]? with
      | none => rw [argsOf_oob a j hj] at ht; exact absurd ht (List.not_mem_nil t)
      | some nd =>
          have hjlt := getSome_lt a j nd hj
          have := h1 ⟨j, hjlt⟩
          rw [← argsOf_get a ⟨j, hjlt⟩] at this
          exact this t ht
    have huses : ∀ j o : Nat, o ∈ usesOf a j → o < a.size := by
      intro j o ho
      cases hj : a[j]? with
      | none => rw [usesOf_oob a j hj] at ho; exact absurd ho (List.not_mem_nil o)
      | some nd =>
          have hjlt := getSome_lt a j nd hj
          have := h2 ⟨j, hjlt⟩
          rw [← usesOf_get a ⟨j, hjlt⟩] at this
          exact this o ho
    refine ⟨hargs, huses, ?_⟩
    intro t o
    by_cases htl : t < a.size
    · by_cases hol : o < a.size
      · have := h3 ⟨t, htl⟩ ⟨o, hol⟩
        rw [← usesOf_get a ⟨t, htl⟩, ← argsOf_get a ⟨o, hol⟩] at this
        exact this
      · have hu0 : (usesOf a t).count o = 0 := by
          rw [List.count_eq_zero]
          intro hmem
          exact hol (huses t o hmem)
        have ha0 : argsOf a o = [] := by
          cases hj : a[o]? with
          | none => exact argsOf_oob a o hj
          | some nd => exact absurd (getSome_lt a o nd hj) hol
        rw [hu0, ha0]
        rfl
    · have hu0 : usesOf a t = [] := by
        cases hj : a[t]? with
        | none => exact usesOf_oob a t hj
        | some nd => exact absurd (getSome_lt a t nd hj) htl
      have ha0 : (argsOf a o).count t = 0 := by
        rw [List.count_eq_zero]
        intro hmem
        exact htl (hargs o t hmem)
      rw [hu0, ha0]
      rfl
  · rintro ⟨h1, h2, h3⟩
    refine ⟨?_, ?_, ?_⟩
    · intro j t ht
      rw [← argsOf_get a j] at ht
      exact h1 j.val t ht
    · intro j o ho
      rw [← usesOf_get a j] at ho
      exact h2 j.val o ho
    · intro t o
      rw [← usesOf_get a t, ← argsOf_get a o]
      exact h3 t.val o.val

/-- The number of positions of a list holding `x` is the count of `x`. -/
theorem countP_range_pos (l : List Nat) (x : Nat) :
    (List.range l.length).countP (fun q => decide (l[q]? = some x)) = l.count x := by
  induction l with
  | nil => rfl
  | cons a tl ih =>
      rw [show (a :: tl).length = tl.length + 1 from rfl, List.range_succ_eq_map,
        List.countP_cons, List.countP_map]
      have hfe : ((fun q => decide ((a :: tl)[q]? = some x)) ∘ Nat.succ) =
          fun q => decide (tl[q]? = some x) := by
        funext q
        show decide ((a :: tl)[q + 1]? = some x) = decide (tl[q]? = some x)
        rw [List.getElem?_cons_succ]
      rw [hfe, ih, List.count_cons]
      have hz : (a :: tl)[0]? = some a := List.getElem?_cons_zero
      by_cases hax : a = x
      · rw [if_pos (by rw [hz, hax]; exact decide_eq_true rfl),
          if_pos (by rw [hax]; exact beq_self_eq_true x)]
      · rw [if_neg (by
            rw [hz]
            simp only [decide_eq_true_eq]
            intro hc
            injection hc with hc2
            exact hax hc2),
          if_neg (by simpa using hax)]

set_option maxHeartbeats 1000000 in
/-- What one matched argument-slot rewrite does: slot `p` of `owner` now
holds `W`, one use entry of `V` is gone, one use entry of `W` is added, and
nothing else moves; use-list consistency is preserved. -/
theorem replaceUseStep_true (a : Array MicroNode) (owner p V W : Nat) (hVW : V ≠ W)
    (hWlt : W < a.size) (hq : UseConsistentQ a)
    (hargp : (argsOf a owner)[p]? = some V) :
    ∃ a2, replaceUseStep a owner p V W = some (a2, true) ∧
      a2.size = a.size ∧
      (∀ j, kindOf a2 j = kindOf a j) ∧
      argsOf a2 owner = (argsOf a owner).set p W ∧
      (∀ o, o ≠ owner → argsOf a2 o = argsOf a o) ∧
      usesOf a2 V = (usesOf a V).erase owner ∧
      usesOf a2 W = usesOf a W ++ [owner] ∧
      (∀ t, t ≠ V → t ≠ W → usesOf a2 t = usesOf a t) ∧
      UseConsistentQ a2 := by
  have hVmem : V ∈ argsOf a owner := List.getElem?_mem hargp
  have hVlt : V < a.size := hq.1 owner V hVmem
  obtain ⟨nd, hnd⟩ := exists_node_of_argsOf a owner (List.ne_nil_of_mem hVmem)
  have hownlt : owner < a.size := getSome_lt a owner nd hnd
  have hmemV : owner ∈ usesOf a V := by
    refine List.count_pos_iff.mp ?_
    rw [hq.2.2 V owner]
    exact List.count_pos_iff.mpr hVmem
  -- stage 1: overwrite the argument slot
  have haE : ∃ aE : Array MicroNode,
      aE = a.modify owner (fun nd2 => { nd2 with args := nd2.args.set p W }) :=
    ⟨_, rfl⟩
  obtain ⟨aE, haE⟩ := haE
  have hEsize : aE.size = a.size := by rw [haE]; exact Array.size_modify a owner _
  have hEargs : ∀ o, argsOf aE o =
      if owner = o then (argsOf a o).set p W else argsOf a o := by
    intro o
    rw [haE]
    exact argsOf_modifyArgs a owner (fun l => l.set p W) rfl o
  have hEuses : ∀ o, usesOf aE o = usesOf a o := by
    intro o
    rw [haE]
    exact usesOf_modifyArgs a owner (fun l => l.set p W) o
  have hEkind : ∀ o, kindOf aE o = kindOf a o := by
    intro o
    rw [haE]
    exact kindOf_modifyArgs a owner (fun l => l.set p W) o
  -- stage 2: remove the use of V
  have haR : ∃ aR : Array MicroNode,
      aR = aE.modify V (fun nd2 => { nd2 with uses := nd2.uses.erase owner }) :=
    ⟨_, rfl⟩
  obtain ⟨aR, haR⟩ := haR
  have hRsize : aR.size = a.size := by rw [haR, Array.size_modify, hEsize]
  have hRuses : ∀ o, usesOf aR o =
      if V = o then (usesOf a o).erase owner else usesOf a o := by
    intro o
    rw [haR, usesOf_modifyUses aE V (fun l => l.erase owner) rfl o, hEuses o]
  have hRargs : ∀ o, argsOf aR o = argsOf aE o := by
    intro o
    rw [haR]
    exact argsOf_modifyUses aE V (fun l => l.erase owner) o
  have hRkind : ∀ o, kindOf aR o = kindOf a o := by
    intro o
    rw [haR, kindOf_modifyUses aE V (fun l => l.erase owner) o, hEkind o]
  have hrm : removeUse aE V owner = some aR := by
    have hVltE : V < aE.size := by rw [hEsize]; exact hVlt
    have hVE : aE[V]? = some (aE.get ⟨V, hVltE⟩) := Array.getElem?_lt aE hVltE
    have huseE : (aE.get ⟨V, hVltE⟩).uses = usesOf a V := by
      rw [← usesOf_eq aE V _ hVE]
      exact hEuses V
    unfold removeUse
    rw [hVE]
    dsimp only
    rw [if_pos (by rw [huseE]; exact hmemV), ← haR]
  -- stage 3: add the use of W
  have ha2 : ∃ a2 : Array MicroNode, a2 = addUse aR W owner := ⟨_, rfl⟩
  obtain ⟨a2, ha2⟩ := ha2
  have h2size : a2.size = a.size := by rw [ha2, addUse_size, hRsize]
  have h2kind : ∀ o, kindOf a2 o = kindOf a o := by
    intro o
    rw [ha2, kindOf_addUse aR W owner o, hRkind o]
  have h2argsO : argsOf a2 owner = (argsOf a owner).set p W := by
    rw [ha2, argsOf_addUse aR W owner owner, hRargs owner, hEargs owner, if_pos rfl]
  have h2argsNe : ∀ o, o ≠ owner → argsOf a2 o = argsOf a o := by
    intro o ho
    rw [ha2, argsOf_addUse aR W owner o, hRargs o, hEargs o,
      if_neg (fun hc => ho hc.symm)]
  have h2usesV : usesOf a2 V = (usesOf a V).erase owner := by
    rw [ha2, usesOf_addUse_ne aR W owner V (fun hc => hVW hc.symm), hRuses V, if_pos rfl]
  have h2usesW : usesOf a2 W = usesOf a W ++ [owner] := by
    have hWltR : W < aR.size := by rw [hRsize]; exact hWlt
    have hWR : aR[W]? = some (aR.get ⟨W, hWltR⟩) := Array.getElem?_lt aR hWltR
    rw [ha2, usesOf_addUse_self aR W owner _ hWR, hRuses W, if_neg hVW]
  have h2usesNe : ∀ t, t ≠ V → t ≠ W → usesOf a2 t = usesOf a t := by
    intro t htV htW
    rw [ha2, usesOf_addUse_ne aR W owner t (fun hc => htW hc.symm), hRuses t,
      if_neg (fun hc => htV hc.symm)]
  -- count bookkeeping
  have hcntU : ∀ x, (usesOf a2 V).count x + (if owner = x then 1 else 0) =
      (usesOf a V).count x := by
    intro x
    rw [h2usesV]
    exact count_erase_eq (usesOf a V) owner hmemV x
  have hcntW : ∀ x, (usesOf a2 W).count x =
      (usesOf a W).count x + (if owner = x then 1 else 0) := by
    intro x
    rw [h2usesW, List.count_append]
    congr 1
    by_cases hox : owner = x
    · rw [if_pos hox, hox]
      simp [List.count_cons]
    · rw [if_neg hox, List.count_cons, List.count_nil, if_neg (by simpa using hox)]
  have hcntA : ∀ x, (argsOf a2 owner).count x + (if V = x then 1 else 0) =
      (argsOf a owner).count x + (if W = x then 1 else 0) := by
    intro x
    rw [h2argsO]
    exact count_set_eq (argsOf a owner) p V W hargp x
  refine ⟨a2, ?_, h2size, h2kind, h2argsO, h2argsNe, h2usesV, h2usesW, h2usesNe,
    ?_, ?_, ?_⟩
  · -- the computation itself
    unfold replaceUseStep
    rw [hnd]
    dsimp only
    have hnda : nd.args[p]? = some V := by
      rw [← argsOf_eq a owner nd hnd]
      exact hargp
    rw [hnda]
    dsimp only
    rw [if_pos rfl, ← haE, hrm]
    simp only [Option.bind_eq_bind, Option.some_bind]
    rw [← ha2]
  · -- arg indices stay in bounds
    intro j t ht
    rw [h2size]
    by_cases hj : j = owner
    · subst hj
      rw [h2argsO] at ht
      rcases List.mem_or_eq_of_mem_set ht with ht2 | ht2
      · exact hq.1 j t ht2
      · rw [ht2]
        exact hWlt
    · rw [h2argsNe j hj] at ht
      exact hq.1 j t ht
  · -- use indices stay in bounds
    intro j o ho
    rw [h2size]
    by_cases hjV : j = V
    · subst hjV
      rw [h2usesV] at ho
      exact hq.2.1 j o (List.mem_of_mem_erase ho)
    · by_cases hjW : j = W
      · subst hjW
        rw [h2usesW] at ho
        rcases List.mem_append.mp ho with ho2 | ho2
        · exact hq.2.1 j o ho2
        · rw [List.mem_singleton.mp ho2]
          exact hownlt
      · rw [h2usesNe j hjV hjW] at ho
        exact hq.2.1 j o ho
  · -- counts stay consistent
    intro t o
    by_cases htV : t = V
    · subst htV
      by_cases how : o = owner
      · subst how
        have e1 := hcntU o
        have e2 := hcntA t
        have e3 := hq.2.2 t o
        rw [if_pos rfl] at e1
        rw [if_pos rfl, if_neg (fun hc => hVW hc.symm)] at e2
        rw [h2argsO] at e2 ⊢
        omega
      · have e1 := hcntU o
        have e3 := hq.2.2 t o
        rw [if_neg (fun hc => how hc.symm)] at e1
        rw [h2argsNe o how]
        omega
    · by_cases htW : t = W
      · subst htW
        by_cases how : o = owner
        · subst how
          have e1 := hcntW o
          have e2 := hcntA t
          have e3 := hq.2.2 t o
          rw [if_pos rfl] at e1
          rw [if_neg hVW, if_pos rfl] at e2
          rw [h2argsO] at e2 ⊢
          omega
        · have e1 := hcntW o
          have e3 := hq.2.2 t o
          rw [if_neg (fun hc => how hc.symm)] at e1
          rw [h2argsNe o how]
          omega
      · rw [h2usesNe t htV htW]
        by_cases how : o = owner
        · subst how
          have e2 := hcntA t
          have e3 := hq.2.2 t o
          rw [if_neg (fun hc => htV hc.symm), if_neg (fun hc => htW hc.symm)] at e2
          rw [h2argsO] at e2 ⊢
          omega
        · rw [h2argsNe o how]
          exact hq.2.2 t o

/-- An unmatched argument slot leaves everything alone. -/
theorem replaceUseStep_false (a : Array MicroNode) (owner p V W : Nat) (nd : MicroNode)
    (hnd : a[owner]? = some nd) (t : Nat) (ht : nd.args[p]? = some t) (htV : t ≠ V) :
    replaceUseStep a owner p V W = some (a, false) := by
  unfold replaceUseStep
  rw [hnd]
  dsimp only
  rw [ht]
  dsimp only
  rw [if_neg htV]

set_option maxHeartbeats 1000000 in
/-- The argument-slot walk of `ReplaceUseOfXWithY` over a duplicate-free
list of in-range slots: every slot holding `V` is rewritten to `W`, one use
entry of `V` disappears per rewritten slot, the matched flag records whether
any slot matched, and consistency is preserved. -/
theorem replaceFold_spec (owner V W : Nat) (hVW : V ≠ W) :
    ∀ (ps : List Nat) (a : Array MicroNode) (hu0 : Bool),
      ps.Nodup → W < a.size → UseConsistentQ a →
      (∀ q ∈ ps, q < (argsOf a owner).length) →
      ∃ (a2 : Array MicroNode) (hu2 : Bool),
        ps.foldlM (fun (acc : Array MicroNode × Bool) p => do
            let s ← replaceUseStep acc.1 owner p V W
            some (s.1, acc.2 || s.2)) (a, hu0) = some (a2, hu2) ∧
        a2.size = a.size ∧
        (∀ j, kindOf a2 j = kindOf a j) ∧
        (∀ o, o ≠ owner → argsOf a2 o = argsOf a o) ∧
        (argsOf a2 owner).length = (argsOf a owner).length ∧
        (∀ q : Nat, (argsOf a2 owner)[q]? =
          if q ∈ ps ∧ (argsOf a owner)[q]? = some V then some W
          else (argsOf a owner)[q]?) ∧
        (usesOf a2 V).length +
          (ps.countP fun q => decide ((argsOf a owner)[q]? = some V)) =
          (usesOf a V).length ∧
        (hu2 = true ↔ hu0 = true ∨ ∃ q ∈ ps, (argsOf a owner)[q]? = some V) ∧
        UseConsistentQ a2 := by
  intro ps
  induction ps with
  | nil =>
      intro a hu0 _ _ hq _
      refine ⟨a, hu0, rfl, rfl, fun j => rfl, fun o _ => rfl, rfl, ?_, ?_, ?_, hq⟩
      · intro q
        rw [if_neg (fun hc => absurd hc.1 (List.not_mem_nil q))]
      · rw [List.countP_nil]
        omega
      · constructor
        · exact Or.inl
        · rintro (h | ⟨q, hq2, _⟩)
          · exact h
          · exact absurd hq2 (List.not_mem_nil q)
  | cons p rest ih =>
      intro a hu0 hnodup hWlt hq hbound
      obtain ⟨hpns, hrestnd⟩ := List.nodup_cons.mp hnodup
      have hplt : p < (argsOf a owner).length := hbound p (List.mem_cons_self p rest)
      have hpv : (argsOf a owner)[p]? = some (argsOf a owner)[p] :=
        List.getElem?_eq_getElem hplt
      rw [List.foldlM_cons]
      by_cases htV : (argsOf a owner)[p] = V
      · -- matched slot
        have hargp : (argsOf a owner)[p]? = some V := by rw [hpv, htV]
        obtain ⟨a1, hstep, h1size, h1kind, h1argsO, h1argsNe, h1usesV, h1usesW,
          h1usesNe, h1q⟩ := replaceUseStep_true a owner p V W hVW hWlt hq hargp
        rw [hstep]
        simp only [Option.bind_eq_bind, Option.some_bind, Bool.or_true]
        have hlen1 : (argsOf a1 owner).length = (argsOf a owner).length := by
          rw [h1argsO, List.length_set]
        obtain ⟨a2, hu2, hfold, h2size, h2kind, h2argsNe, h2len, h2pos, h2uses,
          h2flag, h2q⟩ := ih a1 true hrestnd (by rw [h1size]; exact hWlt) h1q
          (fun q hq2 => by rw [hlen1]; exact hbound q (List.mem_cons_of_mem p hq2))
        refine ⟨a2, hu2, hfold, h2size.trans h1size,
          fun j => (h2kind j).trans (h1kind j),
          fun o ho => (h2argsNe o ho).trans (h1argsNe o ho),
          h2len.trans hlen1, ?_, ?_, ?_, h2q⟩
        · intro q
          rw [h2pos q]
          by_cases hqp : q = p
          · subst hqp
            rw [if_neg (fun hc => hpns hc.1), h1argsO,
              List.getElem?_set, if_pos rfl, if_pos hplt,
              if_pos ⟨List.mem_cons_self q rest, hargp⟩]
          · have hq1 : (argsOf a1 owner)[q]? = (argsOf a owner)[q]? := by
              rw [h1argsO, List.getElem?_set, if_neg (fun hc => hqp hc.symm)]
            rw [hq1]
            by_cases hmem : q ∈ rest
            · by_cases hvq : (argsOf a owner)[q]? = some V
              · rw [if_pos ⟨hmem, hvq⟩, if_pos ⟨List.mem_cons_of_mem p hmem, hvq⟩]
              · rw [if_neg (fun hc => hvq hc.2), if_neg (fun hc => hvq hc.2)]
            · rw [if_neg (fun hc => hmem hc.1),
                if_neg (fun hc =>
                  (List.mem_cons.mp hc.1).elim (fun he => hqp he) (fun hm => hmem hm))]
        · have hcong : (rest.countP fun q => decide ((argsOf a1 owner)[q]? = some V)) =
              rest.countP fun q => decide ((argsOf a owner)[q]? = some V) := by
            refine List.countP_congr ?_
            intro q hq2
            have hqp : q ≠ p := fun hc => hpns (hc ▸ hq2)
            simp only [decide_eq_true_eq]
            rw [h1argsO, List.getElem?_set, if_neg (fun hc => hqp hc.symm)]
          have hmemo : owner ∈ usesOf a V := by
            refine List.count_pos_iff.mp ?_
            rw [hq.2.2 V owner]
            exact List.count_pos_iff.mpr (List.getElem?_mem hargp)
          have hposu : 0 < (usesOf a V).length := List.length_pos_of_mem hmemo
          have hstepU : (usesOf a1 V).length + 1 = (usesOf a V).length := by
            rw [h1usesV, List.length_erase_of_mem hmemo]
            omega
          rw [List.countP_cons, if_pos (by rw [hargp]; exact decide_eq_true rfl)]
          rw [hcong] at h2uses
          omega
        · constructor
          · intro _
            exact Or.inr ⟨p, List.mem_cons_self p rest, hargp⟩
          · intro _
            exact h2flag.mpr (Or.inl rfl)
      · -- unmatched slot
        obtain ⟨nd, hnd⟩ := exists_node_of_argsOf a owner (by
          intro h0
          rw [h0] at hplt
          exact absurd hplt (by simp))
        have hpv2 : nd.args[p]? = some (argsOf a owner)[p] := by
          rw [← argsOf_eq a owner nd hnd]
          exact hpv
        rw [replaceUseStep_false a owner p V W nd hnd _ hpv2 htV]
        simp only [Option.bind_eq_bind, Option.some_bind, Bool.or_false]
        obtain ⟨a2, hu2, hfold, h2size, h2kind, h2argsNe, h2len, h2pos, h2uses,
          h2flag, h2q⟩ := ih a hu0 hrestnd hWlt hq
          (fun q hq2 => hbound q (List.mem_cons_of_mem p hq2))
        have hnp : ¬ (argsOf a owner)[p]? = some V := by
          rw [hpv]
          intro hc
          injection hc with hc2
          exact htV hc2
        refine ⟨a2, hu2, hfold, h2size, h2kind, h2argsNe, h2len, ?_, ?_, ?_, h2q⟩
        · intro q
          rw [h2pos q]
          by_cases hqp : q = p
          · subst hqp
            rw [if_neg (fun hc => hpns hc.1), if_neg (fun hc => hnp hc.2)]
          · by_cases hmem : q ∈ rest
            · by_cases hvq : (argsOf a owner)[q]? = some V
              · rw [if_pos ⟨hmem, hvq⟩, if_pos ⟨List.mem_cons_of_mem p hmem, hvq⟩]
              · rw [if_neg (fun hc => hvq hc.2), if_neg (fun hc => hvq hc.2)]
            · rw [if_neg (fun hc => hmem hc.1),
                if_neg (fun hc =>
                  (List.mem_cons.mp hc.1).elim (fun he => hqp he) (fun hm => hmem hm))]
        · rw [List.countP_cons, if_neg (by simpa using hnp)]
          omega
        · rw [h2flag]
          constructor
          · rintro (h | ⟨q, hq2, hv⟩)
            · exact Or.inl h
            · exact Or.inr ⟨q, List.mem_cons_of_mem p hq2, hv⟩
          · rintro (h | ⟨q, hq2, hv⟩)
            · exact Or.inl h
            · rcases List.mem_cons.mp hq2 with he | hm
              · exact absurd (he ▸ hv) hnp
              · exact Or.inr ⟨q, hm, hv⟩

set_option maxHeartbeats 1000000 in
/-- One complete `ReplaceUseOfXWithY` dispatch on a user of `V`: every
argument slot of `owner` holding `V` now holds `W`, `V` loses exactly its
`owner` use entries, nothing else moves, and consistency is preserved. -/
theorem replaceUseOfXWithY_spec (a : Array MicroNode) (owner V W : Nat) (hVW : V ≠ W)
    (hWlt : W < a.size) (hq : UseConsistentQ a) (hmemo : owner ∈ usesOf a V)
    (hkind : ∀ nd : MicroNode, a[owner]? = some nd →
       (∀ v, nd.kind ≠ MicroKind.constU32 v) ∧ (∀ r, nd.kind ≠ MicroKind.getGPR r)) :
    ∃ a2, replaceUseOfXWithY a owner V W = some a2 ∧
      a2.size = a.size ∧
      (∀ j, kindOf a2 j = kindOf a j) ∧
      (∀ o, o ≠ owner → argsOf a2 o = argsOf a o) ∧
      (argsOf a2 owner).length = (argsOf a owner).length ∧
      (∀ q : Nat, (argsOf a2 owner)[q]? =
        if (argsOf a owner)[q]? = some V then some W else (argsOf a owner)[q]?) ∧
      (usesOf a2 V).length + (usesOf a V).count owner = (usesOf a V).length ∧
      UseConsistentQ a2 := by
  have hownlt : owner < a.size := hq.2.1 V owner hmemo
  have hnd : a[owner]? = some (a.get ⟨owner, hownlt⟩) := Array.getElem?_lt a hownlt
  have hargsO : argsOf a owner = (a.get ⟨owner, hownlt⟩).args := by
    rw [argsOf_eq a owner _ hnd]
  have hcntV : (argsOf a owner).count V = (usesOf a V).count owner :=
    (hq.2.2 V owner).symm
  have hcntpos : 0 < (argsOf a owner).count V := by
    rw [hcntV]
    exact List.count_pos_iff.mpr hmemo
  have hVmem : V ∈ argsOf a owner := List.count_pos_iff.mp hcntpos
  obtain ⟨a2, hu2, hfold, h2size, h2kind, h2argsNe, h2len, h2pos, h2uses, h2flag,
    h2q⟩ := replaceFold_spec owner V W hVW
      (List.range (a.get ⟨owner, hownlt⟩).args.length) a false
      (List.nodup_range _) hWlt hq
      (fun q hq2 => by rw [hargsO]; exact List.mem_range.mp hq2)
  have hu2true : hu2 = true := by
    refine h2flag.mpr (Or.inr ?_)
    obtain ⟨q, hq2⟩ := List.getElem?_of_mem hVmem
    have hqlt : q < (argsOf a owner).length := (List.getElem?_eq_some.mp hq2).1
    exact ⟨q, List.mem_range.mpr (by rw [← hargsO]; exact hqlt), hq2⟩
  subst hu2true
  refine ⟨a2, ?_, h2size, h2kind, h2argsNe, h2len, ?_, ?_, h2q⟩
  · -- the computation
    unfold replaceUseOfXWithY
    rw [hnd]
    dsimp only
    rcases hknd : (a.get ⟨owner, hownlt⟩).kind with v | r | r | op
    · exact absurd hknd ((hkind _ hnd).1 v)
    · exact absurd hknd ((hkind _ hnd).2 r)
    · dsimp only
      rw [hfold]
      rfl
    · dsimp only
      rw [hfold]
      rfl
  · intro q
    rw [h2pos q]
    by_cases hql : q < (argsOf a owner).length
    · rw [if_congr (iff_of_eq (congrArg _ rfl)) rfl rfl]
      by_cases hv : (argsOf a owner)[q]? = some V
      · rw [if_pos ⟨List.mem_range.mpr (by rw [← hargsO]; exact hql), hv⟩, if_pos hv]
      · rw [if_neg (fun hc => hv hc.2), if_neg hv]
    · have hnone : (argsOf a owner)[q]? = none :=
        List.getElem?_eq_none (Nat.le_of_not_lt hql)
      rw [if_neg (fun hc => by rw [hnone] at hc; cases hc.2),
        if_neg (fun hc => by rw [hnone] at hc; cases hc), hnone]
  · have hcp : ((List.range (a.get ⟨owner, hownlt⟩).args.length).countP
        fun q => decide ((argsOf a owner)[q]? = some V)) =
        (argsOf a owner).count V := by
      rw [hargsO]
      exact countP_range_pos (a.get ⟨owner, hownlt⟩).args V
    rw [hcp, hcntV] at h2uses
    exact h2uses

/-- Invariant of the `ReplaceUsesWith` loop relative to the starting arena:
sizes, kinds and argument-list lengths are unchanged, every argument slot
holds its original value or `W` where the original was `V`, and the use
lists are consistent. -/
def ReplInv (a0 : Array MicroNode) (V W : Nat) (a : Array MicroNode) : Prop :=
  a.size = a0.size ∧
  (∀ j : Nat, kindOf a j = kindOf a0 j) ∧
  (∀ o : Nat, (argsOf a o).length = (argsOf a0 o).length) ∧
  (∀ o q : Nat, (argsOf a o)[q]? = (argsOf a0 o)[q]? ∨
     ((argsOf a0 o)[q]? = some V ∧ (argsOf a o)[q]? = some W)) ∧
  UseConsistentQ a

theorem replInv_refl (a0 : Array MicroNode) (V W : Nat) (hq : UseConsistentQ a0) :
    ReplInv a0 V W a0 :=
  ⟨rfl, fun _ => rfl, fun _ => rfl, fun _ _ => Or.inl rfl, hq⟩

/-- One unfolding of the `ReplaceUsesWith` loop. -/
theorem replaceUsesLoop_succ (x y f : Nat) (a : Array MicroNode) :
    replaceUsesLoop x y (f + 1) a =
      match a[x]? with
      | none => none
      | some nd =>
        match nd.uses with
        | [] => some a
        | owner :: _ =>
            (replaceUseOfXWithY a owner x y).bind (replaceUsesLoop x y f) := rfl

set_option maxHeartbeats 1000000 in
/-- With enough fuel, the `ReplaceUsesWith` loop succeeds, empties `V`'s use
list and maintains the invariant. -/
theorem replaceUsesLoop_spec (a0 : Array MicroNode) (V W : Nat) (hVW : V ≠ W)
    (hVlt : V < a0.size) (hWlt : W < a0.size)
    (hwf : ∀ (j : Nat) (x : MicroNode), a0[j]? = some x →
       ((∃ v, x.kind = MicroKind.constU32 v) ∨ (∃ r, x.kind = MicroKind.getGPR r)) →
       x.args = []) :
    ∀ (fuel : Nat) (a : Array MicroNode), ReplInv a0 V W a →
      (usesOf a V).length ≤ fuel →
      ∃ a2, replaceUsesLoop V W fuel a = some a2 ∧ ReplInv a0 V W a2 ∧
        usesOf a2 V = [] := by
  intro fuel
  induction fuel with
  | zero =>
      intro a hinv hlen
      refine ⟨a, rfl, hinv, ?_⟩
      have h0 : (usesOf a V).length = 0 := Nat.le_zero.mp hlen
      exact List.eq_nil_of_length_eq_zero h0
  | succ f ih =>
      intro a hinv hlen
      have hVlt2 : V < a.size := by rw [hinv.1]; exact hVlt
      have hndV : a[V]? = some (a.get ⟨V, hVlt2⟩) := Array.getElem?_lt a hVlt2
      cases husa : (a.get ⟨V, hVlt2⟩).uses with
      | nil =>
          refine ⟨a, ?_, hinv, ?_⟩
          · rw [replaceUsesLoop_succ, hndV]
            dsimp only
            rw [husa]
          · rw [usesOf_eq a V _ hndV, husa]
      | cons owner rest =>
          have husesV : usesOf a V = owner :: rest := by
            rw [usesOf_eq a V _ hndV, husa]
          have hmemo : owner ∈ usesOf a V := by
            rw [husesV]
            exact List.mem_cons_self owner rest
          have hq := hinv.2.2.2.2
          have hkind : ∀ nd : MicroNode, a[owner]? = some nd →
              (∀ v, nd.kind ≠ MicroKind.constU32 v) ∧
              (∀ r, nd.kind ≠ MicroKind.getGPR r) := by
            intro nd hnd
            have hcnt : 0 < (argsOf a owner).count V := by
              rw [← hq.2.2 V owner]
              exact List.count_pos_iff.mpr hmemo
            have hlenpos : 0 < (argsOf a owner).length := by
              rcases hn : argsOf a owner with _ | ⟨t, ts⟩
              · rw [hn] at hcnt
                simp at hcnt
              · simp
            have hlen0 : (argsOf a0 owner).length ≠ 0 := by
              rw [← hinv.2.2.1 owner]
              omega
            have hflat : ∀ k : MicroKind, nd.kind = k →
                ((∃ v, k = MicroKind.constU32 v) ∨ (∃ r, k = MicroKind.getGPR r)) →
                False := by
              intro k hk hkor
              have hk0 : kindOf a0 owner = some k := by
                rw [← hinv.2.1 owner]
                unfold kindOf
                rw [hnd, ← hk]
                rfl
              cases h0 : a0[owner]? with
              | none =>
                  unfold kindOf at hk0
                  rw [h0] at hk0
                  cases hk0
              | some x0 =>
                  unfold kindOf at hk0
                  rw [h0] at hk0
                  injection hk0 with hk0e
                  have hargs0 : x0.args = [] := by
                    refine hwf owner x0 h0 ?_
                    rw [hk0e]
                    exact hkor
                  have : (argsOf a0 owner).length = 0 := by
                    rw [argsOf_eq a0 owner x0 h0, hargs0]
                    rfl
                  exact hlen0 this
            constructor
            · intro v hv
              exact hflat _ hv (Or.inl ⟨v, rfl⟩)
            · intro r hr
              exact hflat _ hr (Or.inr ⟨r, rfl⟩)
          have hWlt2 : W < a.size := by rw [hinv.1]; exact hWlt
          obtain ⟨a2, hcall, h2size, h2kind, h2argsNe, h2len, h2pos, h2uses, h2q⟩ :=
            replaceUseOfXWithY_spec a owner V W hVW hWlt2 hq hmemo hkind
          have hcnto : 0 < (usesOf a V).count owner := List.count_pos_iff.mpr hmemo
          have hlen2 : (usesOf a2 V).length ≤ f := by
            rw [husesV] at h2uses hlen
            have hc1 : 0 < List.count owner (owner :: rest) := by
              rw [← husesV]
              exact hcnto
            simp only [List.length_cons] at hlen h2uses
            omega
          have hinv2 : ReplInv a0 V W a2 := by
            obtain ⟨hs, hk, hl, hp, _⟩ := hinv
            refine ⟨h2size.trans hs, fun j => (h2kind j).trans (hk j), ?_, ?_, h2q⟩
            · intro o
              by_cases ho : o = owner
              · subst ho
                rw [h2len]
                exact hl o
              · rw [h2argsNe o ho]
                exact hl o
            · intro o q2
              by_cases ho : o = owner
              · subst ho
                rw [h2pos q2]
                rcases hp o q2 with hcur | ⟨horig, hcur⟩
                · by_cases hv : (argsOf a o)[q2]? = some V
                  · exact Or.inr ⟨hcur ▸ hv, by rw [if_pos hv]⟩
                  · rw [if_neg hv]
                    exact Or.inl hcur
                · have hnv : ¬ (argsOf a o)[q2]? = some V := by
                    rw [hcur]
                    intro hc
                    injection hc with hc2
                    exact hVW hc2.symm
                  rw [if_neg hnv]
                  exact Or.inr ⟨horig, hcur⟩
              · rw [h2argsNe o ho]
                exact hp o q2
          obtain ⟨a3, hloop, hinv3, hend⟩ := ih a2 hinv2 hlen2
          refine ⟨a3, ?_, hinv3, hend⟩
          rw [replaceUsesLoop_succ, hndV]
          dsimp only
          rw [husa]
          dsimp only
          rw [hcall]
          simp only [Option.bind_eq_bind, Option.some_bind]
          exact hloop

/-- C6: for every value `V` of a consistent arena with a nonempty use list
and every in-arena replacement `W ≠ V` of the same type, `ReplaceUsesWith`
succeeds (the `ASSERT(uses.empty())` passes): afterwards `V`'s use list is
empty, every node that previously referenced `V` at some argument slot now
references `W` at that slot (all other slots and all kinds unchanged), and
the use lists — in particular `W`'s, which records all of the new uses — are
again consistent. -/
theorem claim_C6_replace_uses (a : Array MicroNode) (V W : Nat) (ndV : MicroNode)
    (hV : a[V]? = some ndV) (hne : ndV.uses ≠ []) (hVW : V ≠ W) (hWlt : W < a.size)
    (htyp : valueType a W = valueType a V) (hcons : UseConsistent a)
    (hwf : ∀ (j : Nat) (x : MicroNode), a[j]? = some x →
       ((∃ v, x.kind = MicroKind.constU32 v) ∨ (∃ r, x.kind = MicroKind.getGPR r)) →
       x.args = []) :
    ∃ a2 : Array MicroNode, ReplaceUsesWith a V W = some a2 ∧
      (∃ ndV2, a2[V]? = some ndV2 ∧ ndV2.uses = []) ∧
      (∀ (o : Nat) (x : MicroNode), a[o]? = some x → ∃ x2, a2[o]? = some x2 ∧
         x2.kind = x.kind ∧
         x2.args = x.args.map (fun t => if t = V then W else t)) ∧
      UseConsistent a2 := by
  have hq : UseConsistentQ a := (useConsistentQ_iff a).mp hcons
  have hVlt : V < a.size := getSome_lt a V ndV hV
  obtain ⟨a2, hloop, hinv2, hend⟩ := replaceUsesLoop_spec a V W hVW hVlt hWlt hwf
    ndV.uses.length a (replInv_refl a V W hq)
    (by rw [usesOf_eq a V ndV hV])
  have hVlt2 : V < a2.size := by rw [hinv2.1]; exact hVlt
  have hndV2 : a2[V]? = some (a2.get ⟨V, hVlt2⟩) := Array.getElem?_lt a2 hVlt2
  have huses2 : (a2.get ⟨V, hVlt2⟩).uses = [] := by
    rw [← usesOf_eq a2 V _ hndV2]
    exact hend
  have hmain : ReplaceUsesWith a V W = some a2 := by
    unfold ReplaceUsesWith
    rw [hV]
    dsimp only
    rw [hloop]
    dsimp only
    rw [hndV2]
    dsimp only
    rw [if_pos huses2]
  have hq2 : UseConsistentQ a2 := hinv2.2.2.2.2
  refine ⟨a2, hmain, ⟨_, hndV2, huses2⟩, ?_, (useConsistentQ_iff a2).mpr hq2⟩
  intro o x hx
  have holt : o < a.size := getSome_lt a o x hx
  have holt2 : o < a2.size := by rw [hinv2.1]; exact holt
  have hx2 : a2[o]? = some (a2.get ⟨o, holt2⟩) := Array.getElem?_lt a2 holt2
  refine ⟨a2.get ⟨o, holt2⟩, hx2, ?_, ?_⟩
  · have hko := hinv2.2.1 o
    unfold kindOf at hko
    rw [hx2, hx] at hko
    injection hko
  · have hargs2 : argsOf a2 o = (a2.get ⟨o, holt2⟩).args := argsOf_eq a2 o _ hx2
    have hargs0 : argsOf a o = x.args := argsOf_eq a o x hx
    rw [← hargs2, ← hargs0]
    have hcnt0 : (argsOf a2 o).count V = 0 := by
      rw [← hq2.2.2 V o, hend]
      rfl
    refine List.ext_getElem? ?_
    intro q
    rw [List.getElem?_map]
    rcases hinv2.2.2.2.1 o q with hcur | ⟨horig, hcur⟩
    · rw [hcur]
      cases hv : (argsOf a o)[q]? with
      | none => rfl
      | some t =>
          have htV : t ≠ V := by
            intro hc
            subst hc
            have hmemV2 : t ∈ argsOf a2 o := List.getElem?_mem (hcur.trans hv)
            have := List.count_pos_iff.mpr hmemV2
            omega
          show some t = some (if t = V then W else t)
          rw [if_neg htV]
    · rw [hcur, horig]
      show some W = some (if V = V then W else V)
      rw [if_pos rfl]

/-- A three-node arena exercising `ReplaceUsesWith`: an `Add` referencing
the constant at index 0 (to be replaced by the constant at index 1). -/
def replArena : Array MicroNode :=
  #[⟨.constU32 1, [], .noFlags, [2]⟩, ⟨.constU32 2, [], .noFlags, [2]⟩,
    ⟨.inst .Add, [0, 1], .NZCV, []⟩]

/-- C6 witness: replacing all uses of value 0 by value 1 in `replArena`
succeeds, empties the use list of 0, rewrites the `Add`'s arguments and
keeps the arena consistent. -/
theorem claim_C6_witness :
    replArena[0]? = some ⟨.constU32 1, [], .noFlags, [2]⟩ ∧
    (⟨.constU32 1, [], .noFlags, [2]⟩ : MicroNode).uses ≠ [] ∧
    (0 : Nat) ≠ 1 ∧ 1 < replArena.size ∧
    valueType replArena 1 = valueType replArena 0 ∧
    UseConsistent replArena ∧
    (∃ a2 : Array MicroNode, ReplaceUsesWith replArena 0 1 = some a2 ∧
      (∃ ndV2, a2[0]? = some ndV2 ∧ ndV2.uses = []) ∧
      (∀ (o : Nat) (x : MicroNode), replArena[o]? = some x → ∃ x2, a2[o]? = some x2 ∧
         x2.kind = x.kind ∧
         x2.args = x.args.map (fun t => if t = 0 then 1 else t)) ∧
      UseConsistent a2) := by
  have hwf : ∀ (j : Nat) (x : MicroNode), replArena[j]? = some x →
      ((∃ v, x.kind = MicroKind.constU32 v) ∨ (∃ r, x.kind = MicroKind.getGPR r)) →
      x.args = [] := by
    intro j x hx hk
    have hj : j < 3 := getSome_lt _ j x hx
    interval_cases j
    · injection hx with hx2
      rw [← hx2]
      decide
    · injection hx with hx2
      rw [← hx2]
      decide
    · injection hx with hx2
      rw [← hx2] at hk
      rcases hk with ⟨v, hv⟩ | ⟨r, hr⟩
      · cases hv
      · cases hr
  exact ⟨rfl, by decide, by decide, by decide, rfl, by decide,
    claim_C6_replace_uses replArena 0 1 ⟨.constU32 1, [], .noFlags, [2]⟩ rfl
      (by decide) (by decide) (by decide) rfl (by decide) hwf⟩

/-- C9: for any run-state and any context, save-then-load restores the
executor's run-state (GPRs, CPSR, VFP registers, FPSCR, FPEXC — and the
untouched CP15 registers) exactly, and repeating the pair any number of
times is a no-op. -/
theorem claim_C9_context_roundtrip (s : ARMulState) (ctx : ThreadContext) (k : Nat) :
    saveLoad ctx s = s ∧ (saveLoad ctx)^[k] s = s := by
  refine ⟨saveLoad_eq_id ctx s, ?_⟩
  induction k with
  | zero => rfl
  | succ n ih => rw [Function.iterate_succ_apply, saveLoad_eq_id]; exact ih

end ArmJit
